import Mathlib

/-!
Verification of the caskdb log-structured key-value store and its persistent
queue, by a shallow embedding of the Go source into Lean.

Bytes are modelled as natural numbers, byte strings as `List Nat`, segment
ids as `Nat` (the on-disk names are their decimal representations), and the
store / queue states as explicit structures.  File reads follow the Go
`os.File.Read` contract: a read of `n` bytes at a position before EOF returns
up to `n` bytes without error (the Go buffers are zero-filled, so the model
zero-pads); a nonempty read at or past EOF fails.
-/

namespace CaskDB

/-- CRC32-IEEE polynomial (reversed), as used by `hash/crc32.ChecksumIEEE`. -/
def crc32poly : Nat := 0xEDB88320

/-- One bit-round of the reflected CRC32 computation. -/
def crc32round (c : Nat) : Nat :=
  if c % 2 = 1 then (c / 2) ^^^ crc32poly else c / 2

/-- Iterate `crc32round`. -/
def crcRounds : Nat → Nat → Nat
  | 0, c => c
  | n + 1, c => crcRounds n (crc32round c)

/-- `crc32.ChecksumIEEE` over a byte list (bytes taken mod 256). -/
def crc32 (l : List Nat) : Nat :=
  0xFFFFFFFF ^^^ l.foldl (fun c b => crcRounds 8 (c ^^^ b % 256)) 0xFFFFFFFF

/-- Little-endian base-10 digits, computed with explicit fuel so that the
kernel can evaluate it (shown equal to `Nat.digits 10` below). -/
def decDigits : Nat → Nat → List Nat
  | 0, _ => []
  | fuel + 1, n => if n = 0 then [] else n % 10 :: decDigits fuel (n / 10)

/-- The ASCII decimal representation of a natural number, as produced by
Go `fmt.Sprintf("%d", n)` (most significant digit first, `"0"` for zero). -/
def decRepr (n : Nat) : List Nat :=
  if n = 0 then [48] else (decDigits n n).reverse.map (fun d => d + 48)

/-- `makeCheckSum` from the source: `%10d` of the CRC32 of the value
(space-padded on the left to width 10), truncated to 10 bytes. -/
def makeCheckSum (dat : List Nat) : List Nat :=
  (List.replicate (10 - (decRepr (crc32 dat)).length) 32 ++ decRepr (crc32 dat)).take 10

/-- The magic bytes "R3C". -/
def MAGICNUMBER : List Nat := [82, 51, 67]

/-- The record built by `Put`'s buffer writes:
magic, checksum, SzLenKey, SzLenData, LenKey, LenData, space, key, space,
value, newline.  A delete is this record with empty `data`. -/
def encodeRec (key data : List Nat) : List Nat :=
  MAGICNUMBER ++ makeCheckSum data ++
    decRepr (decRepr key.length).length ++ decRepr (decRepr data.length).length ++
    decRepr key.length ++ decRepr data.length ++
    [32] ++ key ++ [32] ++ data ++ [10]

/-- Model of one `FH.Read` of `n` bytes after seeking to `pos` in a file with
contents `c`: returns the (zero-padded) buffer of length `n` together with
the count of bytes actually read, or fails at EOF. -/
def fread (c : List Nat) (pos n : Nat) : Option (List Nat × Nat) :=
  if n = 0 then some ([], 0)
  else if c.length ≤ pos then none
  else some ((c.drop pos).take n ++ List.replicate (n - min n (c.length - pos)) 0,
             min n (c.length - pos))

/-- Is `c` an ASCII decimal digit? -/
def isDigitB (c : Nat) : Bool := decide (48 ≤ c) && decide (c ≤ 57)

/-- One step of decimal parsing. -/
def decStep (acc c : Nat) : Nat := acc * 10 + (c - 48)

/-- Go `strconv.Atoi` with its error discarded (as the source does):
the parsed value on an all-digit nonempty input, and 0 otherwise. -/
def atoiGo (l : List Nat) : Nat :=
  if l ≠ [] ∧ l.all isDigitB then l.foldl decStep 0 else 0

/-- `GetOff` from the source: decode the record at `off` in segment contents
`c`, returning (key, value, next offset).  Reads the 15-byte header, the
length fields, then `LenKey+LenData+2` bytes, and validates the checksum of
the value slice against header bytes 3..12.  (The source performs no magic
or digit-parse validation.) -/
def GetOff (c : List Nat) (off : Nat) : Option (List Nat × List Nat × Nat) :=
  match fread c off 15 with
  | none => none
  | some (hdr, szHeader) =>
    let szLenKey := atoiGo ((hdr.drop 13).take 1)
    let szLenData := atoiGo ((hdr.drop 14).take 1)
    match fread c (off + szHeader) (szLenKey + szLenData) with
    | none => none
    | some (dlen, szLen) =>
      let lenKey := atoiGo (dlen.take szLenKey)
      let lenData := atoiGo (dlen.drop szLenKey)
      match fread c (off + szHeader + szLen) (lenKey + lenData + 2) with
      | none => none
      | some (db, szData) =>
        if (hdr.drop 3).take 10 = makeCheckSum (db.drop (lenKey + 2)) then
          some ((db.drop 1).take lenKey, db.drop (lenKey + 2),
                off + szHeader + szLen + szData + 1)
        else none

/-! ### Decimal representation and parsing lemmas -/

theorem decDigits_eq (fuel n : Nat) (h : n ≤ fuel) : decDigits fuel n = Nat.digits 10 n := by
  induction fuel generalizing n with
  | zero =>
    have : n = 0 := Nat.le_zero.mp h
    subst this
    simp [decDigits]
  | succ f ih =>
    by_cases h0 : n = 0
    · simp [decDigits, h0]
    · have hpos : 0 < n := Nat.pos_of_ne_zero h0
      have hdiv : n / 10 < n := Nat.div_lt_self hpos (by norm_num)
      rw [decDigits, if_neg h0, Nat.digits_def' (by norm_num : (1:Nat) < 10) hpos,
        ih (n / 10) (by omega)]

theorem decRepr_eq (n : Nat) :
    decRepr n = if n = 0 then [48] else (Nat.digits 10 n).reverse.map (fun d => d + 48) := by
  rw [decRepr, decDigits_eq n n le_rfl]

theorem foldl_decStep_rev (L : List Nat) (acc : Nat) (h : ∀ d ∈ L, d < 10) :
    (L.reverse.map (fun d => d + 48)).foldl decStep acc =
      acc * 10 ^ L.length + Nat.ofDigits 10 L := by
  induction L generalizing acc with
  | nil => simp
  | cons d t ih =>
    have ht : ∀ x ∈ t, x < 10 := fun x hx => h x (List.mem_cons_of_mem _ hx)
    rw [List.reverse_cons, List.map_append, List.foldl_append, ih _ ht]
    simp only [List.map_cons, List.map_nil, List.foldl_cons, List.foldl_nil, decStep,
      Nat.add_sub_cancel, Nat.ofDigits_cons, List.length_cons]
    ring

theorem atoiGo_decRepr (n : Nat) : atoiGo (decRepr n) = n := by
  rw [decRepr_eq]
  by_cases h0 : n = 0
  · subst h0; decide
  · rw [if_neg h0]
    have hne : Nat.digits 10 n ≠ [] := Nat.digits_ne_nil_iff_ne_zero.mpr h0
    have hdig : ∀ d ∈ Nat.digits 10 n, d < 10 :=
      fun d hd => Nat.digits_lt_base (by norm_num) hd
    rw [atoiGo, if_pos]
    · rw [foldl_decStep_rev _ _ hdig, Nat.ofDigits_digits]
      ring
    · refine ⟨by simp [hne], ?_⟩
      rw [List.all_eq_true]
      intro c hc
      rw [List.mem_map] at hc
      obtain ⟨d, hd, rfl⟩ := hc
      rw [List.mem_reverse] at hd
      have := hdig d hd
      simp only [isDigitB, Bool.and_eq_true, decide_eq_true_eq]
      omega

theorem decRepr_ne_nil (n : Nat) : decRepr n ≠ [] := by
  rw [decRepr_eq]
  by_cases h0 : n = 0
  · simp [h0]
  · have hne : Nat.digits 10 n ≠ [] := Nat.digits_ne_nil_iff_ne_zero.mpr h0
    simp [h0, hne]

theorem decRepr_length_pos (n : Nat) : 0 < (decRepr n).length :=
  List.length_pos.mpr (decRepr_ne_nil n)

theorem decRepr_length_le (n k : Nat) (hn : n < 10 ^ k) (hk : 0 < k) :
    (decRepr n).length ≤ k := by
  rw [decRepr_eq]
  by_cases h0 : n = 0
  · simp [h0]; omega
  · rw [if_neg h0]
    rw [List.length_map, List.length_reverse]
    by_contra hlen
    push_neg at hlen
    have h1 : 10 ^ (Nat.digits 10 n).length ≤ 10 * n :=
      Nat.base_pow_length_digits_le 10 n (by norm_num) h0
    have h2 : 10 ^ (k + 1) ≤ 10 ^ (Nat.digits 10 n).length :=
      Nat.pow_le_pow_right (by norm_num) (by omega)
    rw [pow_succ] at h2
    omega

theorem decRepr_single (m : Nat) (h1 : 0 < m) (h2 : m < 10) : decRepr m = [m + 48] := by
  rw [decRepr_eq, if_neg (by omega), Nat.digits_def' (by norm_num : (1:Nat) < 10) h1,
    Nat.mod_eq_of_lt h2, Nat.div_eq_of_lt h2]
  simp

theorem atoiGo_single (m : Nat) (h : m < 10) : atoiGo [m + 48] = m := by
  rw [atoiGo, if_pos]
  · simp [decStep]
  · refine ⟨by simp, ?_⟩
    simp only [List.all_cons, List.all_nil, Bool.and_true, isDigitB,
      Bool.and_eq_true, decide_eq_true_eq]
    omega

theorem makeCheckSum_length (v : List Nat) : (makeCheckSum v).length = 10 := by
  rw [makeCheckSum]
  rw [List.length_take, List.length_append, List.length_replicate]
  omega

/-! ### Reading lemmas -/

theorem fread_of_drop (c : List Nat) (pos n : Nat) (mid rest : List Nat)
    (hd : c.drop pos = mid ++ rest) (hn : 0 < n) (hmid : n ≤ mid.length) :
    fread c pos n = some (mid.take n, n) := by
  have hlen : c.length - pos = mid.length + rest.length := by
    have := congrArg List.length hd
    simpa [List.length_drop] using this
  rw [fread, if_neg (by omega), if_neg (by omega)]
  have hmin : min n (c.length - pos) = n := by omega
  rw [hmin, hd, List.take_append_of_le_length hmid]
  simp

theorem fread_none_of_le (c : List Nat) (pos n : Nat) (hn : n ≠ 0)
    (hpos : c.length ≤ pos) : fread c pos n = none := by
  rw [fread, if_neg hn, if_pos hpos]

/-! ### Decoding a well-framed record -/

/-- A record frame with arbitrary magic and checksum fields; `encodeRec`
is the special case of the genuine magic and the value's checksum. -/
def frameRec (mg cks key data : List Nat) : List Nat :=
  mg ++ cks ++ decRepr (decRepr key.length).length ++ decRepr (decRepr data.length).length ++
    decRepr key.length ++ decRepr data.length ++ [32] ++ key ++ [32] ++ data ++ [10]

theorem encodeRec_eq_frame (k v : List Nat) :
    encodeRec k v = frameRec MAGICNUMBER (makeCheckSum v) k v := rfl

/-- Decoding at the start of a framed record: the magic bytes are never
inspected; the checksum field alone decides success.  On success the key and
value are returned exactly, with the next offset advanced by the full record
length `15 + SzLenKey + SzLenData + LenKey + LenData + 3`. -/
theorem GetOff_frame (pre mg cks k v suf : List Nat)
    (hmg : mg.length = 3) (hcks : cks.length = 10)
    (hk : k.length < 10 ^ 9) (hv : v.length < 10 ^ 9) :
    GetOff (pre ++ frameRec mg cks k v ++ suf) pre.length =
      if cks = makeCheckSum v then
        some (k, v, pre.length + 15 + (decRepr k.length).length +
          (decRepr v.length).length + k.length + v.length + 3)
      else none := by
  have hLKlen : (decRepr k.length).length ≤ 9 := decRepr_length_le _ 9 hk (by norm_num)
  have hLKpos : 0 < (decRepr k.length).length := decRepr_length_pos _
  have hLDlen : (decRepr v.length).length ≤ 9 := decRepr_length_le _ 9 hv (by norm_num)
  have hLDpos : 0 < (decRepr v.length).length := decRepr_length_pos _
  set LK := decRepr k.length with hLKdef
  set LD := decRepr v.length with hLDdef
  have hSzK : decRepr LK.length = [LK.length + 48] := decRepr_single _ hLKpos (by omega)
  have hSzD : decRepr LD.length = [LD.length + 48] := decRepr_single _ hLDpos (by omega)
  set c := pre ++ frameRec mg cks k v ++ suf with hc
  have hA : c.drop pre.length =
      (mg ++ cks ++ [LK.length + 48] ++ [LD.length + 48]) ++
        ((LK ++ LD) ++ (([32] ++ k ++ [32] ++ v) ++ ([10] ++ suf))) := by
    rw [hc, List.append_assoc, List.drop_left, frameRec, hSzK, hSzD]
    simp [List.append_assoc]
  have hhdrlen : (mg ++ cks ++ [LK.length + 48] ++ [LD.length + 48]).length = 15 := by
    simp [hmg, hcks]
  have hf1 : fread c pre.length 15 =
      some (mg ++ cks ++ [LK.length + 48] ++ [LD.length + 48], 15) := by
    have h := fread_of_drop c pre.length 15 _ _ hA (by norm_num) (le_of_eq hhdrlen.symm)
    rwa [show (mg ++ cks ++ [LK.length + 48] ++ [LD.length + 48]).take 15 =
        mg ++ cks ++ [LK.length + 48] ++ [LD.length + 48] from by
      rw [← hhdrlen]; exact List.take_length _] at h
  have hd13 : (mg ++ cks ++ [LK.length + 48] ++ [LD.length + 48]).drop 13 =
      [LK.length + 48, LD.length + 48] := by
    rw [show mg ++ cks ++ [LK.length + 48] ++ [LD.length + 48] =
        (mg ++ cks) ++ [LK.length + 48, LD.length + 48] from by simp]
    rw [List.drop_left' (by simp [hmg, hcks])]
  have hd14 : (mg ++ cks ++ [LK.length + 48] ++ [LD.length + 48]).drop 14 =
      [LD.length + 48] := by
    rw [show mg ++ cks ++ [LK.length + 48] ++ [LD.length + 48] =
        (mg ++ cks ++ [LK.length + 48]) ++ [LD.length + 48] from by simp]
    rw [List.drop_left' (by simp [hmg, hcks])]
  have hd3 : ((mg ++ cks ++ [LK.length + 48] ++ [LD.length + 48]).drop 3).take 10 = cks := by
    rw [show mg ++ cks ++ [LK.length + 48] ++ [LD.length + 48] =
        mg ++ (cks ++ ([LK.length + 48] ++ [LD.length + 48])) from by simp]
    rw [List.drop_left' hmg, List.take_append_of_le_length (le_of_eq hcks.symm)]
    rw [← hcks]
    exact List.take_length _
  have hB : c.drop (pre.length + 15) =
      (LK ++ LD) ++ (([32] ++ k ++ [32] ++ v) ++ ([10] ++ suf)) := by
    rw [← List.drop_drop, hA, List.drop_left' hhdrlen]
  have hf2 : fread c (pre.length + 15) (LK.length + LD.length) =
      some (LK ++ LD, LK.length + LD.length) := by
    have h := fread_of_drop c (pre.length + 15) (LK.length + LD.length) _ _ hB
      (by omega) (by simp)
    rwa [show (LK ++ LD).take (LK.length + LD.length) = LK ++ LD from by
      rw [← List.length_append]; exact List.take_length _] at h
  have hdb : ([32] ++ k ++ [32] ++ v).length = k.length + v.length + 2 := by
    simp; omega
  have hC : c.drop (pre.length + 15 + (LK.length + LD.length)) =
      ([32] ++ k ++ [32] ++ v) ++ ([10] ++ suf) := by
    rw [← List.drop_drop, hB, List.drop_left' (by simp)]
  have hf3 : fread c (pre.length + 15 + (LK.length + LD.length)) (k.length + v.length + 2) =
      some ([32] ++ k ++ [32] ++ v, k.length + v.length + 2) := by
    have h := fread_of_drop c (pre.length + 15 + (LK.length + LD.length))
      (k.length + v.length + 2) _ _ hC (by omega) (le_of_eq hdb.symm)
    have hx : List.take (k.length + v.length + 2) ([32] ++ k ++ [32] ++ v) =
        [32] ++ k ++ [32] ++ v := by
      rw [← hdb]
      exact List.take_length _
    rw [hx] at h
    exact h
  have hrecData : ([32] ++ k ++ [32] ++ v).drop (k.length + 2) = v := by
    rw [show [32] ++ k ++ [32] ++ v = ([32] ++ k ++ [32]) ++ v from by simp]
    rw [List.drop_left' (by simp)]
  have hkey : (([32] ++ k ++ [32] ++ v).drop 1).take k.length = k := by
    rw [show [32] ++ k ++ [32] ++ v = [32] ++ (k ++ ([32] ++ v)) from by simp,
      List.drop_left' (by simp)]
    rw [List.take_append_of_le_length le_rfl, List.take_length]
  unfold GetOff
  rw [hf1]
  dsimp only
  rw [hd13, hd14]
  rw [show ([LK.length + 48, LD.length + 48].take 1) = [LK.length + 48] from rfl]
  rw [show ([LD.length + 48].take 1) = [LD.length + 48] from rfl]
  rw [atoiGo_single _ (by omega), atoiGo_single _ (by omega), hf2]
  dsimp only
  rw [List.take_left, List.drop_left, hLKdef, hLDdef, atoiGo_decRepr, atoiGo_decRepr,
    ← hLKdef, ← hLDdef, hf3]
  dsimp only
  rw [hrecData, hd3, hkey]
  rw [show pre.length + 15 + (LK.length + LD.length) + (k.length + v.length + 2) + 1 =
    pre.length + 15 + LK.length + LD.length + k.length + v.length + 3 from by omega]

/-! ### Store state model

Go maps are modelled as association lists (`find?` on the first matching
entry); Go's zero-value reads and delete-on-missing are reproduced by
`cget`/`cbump`.  Segment ids are `Nat` (their decimal representations name
the files), keys are byte lists. -/

/-- Errors surfaced by the store operations. -/
inductive PErr where
  | emptyKey
  | keyNotExist
  | writeFail
deriving DecidableEq

/-- One attempted segment-file write (target file, encoded bytes, success). -/
structure WriteEv where
  file : Nat
  bytes : List Nat
  ok : Bool
deriving DecidableEq

/-- The store state `PQ`: active segment id (`File`), every segment file's
contents, the key index (`Key`), per-segment live-record counters
(`CountFile`), active-segment size (`CurOffset`), the rotation threshold
(`MSize`), the reallocation queue, and the last key seen during replay. -/
structure PQState where
  file : Nat
  segs : Nat → List Nat
  index : List (List Nat × Nat × Nat)
  countF : List (Nat × Int)
  curOffset : Nat
  msize : Nat
  keysReallocate : Option (List (List Nat))
  lastOldKey : List Nat

/-- Go map read `(*pq.Key)[k]`. -/
def ilookup (idx : List (List Nat × Nat × Nat)) (k : List Nat) : Option (Nat × Nat) :=
  (idx.find? (fun e => decide (e.1 = k))).map (fun e => e.2)

/-- Go map assignment `(*pq.Key)[k] = v`. -/
def iset (idx : List (List Nat × Nat × Nat)) (k : List Nat) (v : Nat × Nat) :
    List (List Nat × Nat × Nat) :=
  if idx.any (fun e => decide (e.1 = k)) then
    idx.map (fun e => if e.1 = k then (k, v) else e)
  else idx ++ [(k, v)]

/-- Go map deletion `delete(*pq.Key, k)`. -/
def idel (idx : List (List Nat × Nat × Nat)) (k : List Nat) : List (List Nat × Nat × Nat) :=
  idx.filter (fun e => decide (e.1 ≠ k))

/-- Go map read of a counter (missing entries read as 0). -/
def cget (m : List (Nat × Int)) (f : Nat) : Int :=
  ((m.find? (fun e => decide (e.1 = f))).map (fun e => e.2)).getD 0

/-- Go counter increment `(*pq.CountFile)[f] += d` (creates the entry if
missing, as Go's `m[f]--` does). -/
def cbump (m : List (Nat × Int)) (f : Nat) (d : Int) : List (Nat × Int) :=
  if m.any (fun e => decide (e.1 = f)) then
    m.map (fun e => if e.1 = f then (e.1, e.2 + d) else e)
  else m ++ [(f, d)]

/-- Sum of all per-segment live counters. -/
def sumC (m : List (Nat × Int)) : Int := (m.map (fun e => e.2)).sum

/-- Does the cross-segment re-entrant rule of `Put` fire for this key? -/
def crossSeg (st : PQState) (key : List Nat) : Bool :=
  match ilookup st.index key with
  | some (f0, _) => decide (f0 ≠ st.file)
  | none => false

/-- Result of a `Put` call: new state, returned error, attempted writes. -/
structure PutRes where
  st : PQState
  err : Option PErr
  evs : List WriteEv

/-- The body of `Put` after the re-entrant cross-segment delete check:
encodes the record, attempts the single file write (`wOk` gives its
outcome), advances `CurOffset` (even on a failed write), and updates the
index and counters only when the write succeeded. -/
def putBody (st : PQState) (key : List Nat) (data : Option (List Nat)) (wOk : Bool) :
    PutRes :=
  if data = none ∧ ilookup st.index key = none then ⟨st, some PErr.keyNotExist, []⟩
  else
    let buf := encodeRec key (data.getD [])
    let offtemp := st.curOffset
    let target := match data with
      | some _ => st.file
      | none => ((ilookup st.index key).getD (0, 0)).1
    let adv := data.isSome || (match ilookup st.index key with
      | some (f0, _) => decide (f0 = st.file)
      | none => false)
    let curOff' := if adv then st.curOffset + buf.length else st.curOffset
    if wOk then
      match data with
      | some _ =>
        let cF := match ilookup st.index key with
          | some (f0, _) => cbump st.countF f0 (-1)
          | none => st.countF
        ⟨{ st with
            segs := (fun f => if f = target then st.segs f ++ buf else st.segs f),
            curOffset := curOff',
            index := iset st.index key (st.file, offtemp),
            countF := cbump cF st.file 1 }, none, [⟨target, buf, true⟩]⟩
      | none =>
        ⟨{ st with
            segs := (fun f => if f = target then st.segs f ++ buf else st.segs f),
            curOffset := curOff',
            index := idel st.index key,
            countF := cbump st.countF ((ilookup st.index key).getD (0, 0)).1 (-1) }, none,
          [⟨target, buf, true⟩]⟩
    else
      ⟨{ st with curOffset := curOff' }, some PErr.writeFail, [⟨target, buf, false⟩]⟩

/-- `Put` with explicit write outcomes: when the cross-segment rule fires,
`w1` is the success of the re-entrant delete's write (its error is ignored,
as in the source) and `w2` of the main write; otherwise `w1` is the success
of the only write. -/
def Put (st : PQState) (key : List Nat) (data : Option (List Nat)) (w1 w2 : Bool) :
    PutRes :=
  if key = [] then ⟨st, some PErr.emptyKey, []⟩
  else if data.isSome && crossSeg st key then
    let r1 := putBody st key none w1
    let r2 := putBody r1.st key data w2
    ⟨r2.st, r2.err, r1.evs ++ r2.evs⟩
  else putBody st key data w1

/-- `Get`: index lookup followed by `GetOff` at the stored location. -/
def Get (st : PQState) (key : List Nat) : Option (List Nat) :=
  match ilookup st.index key with
  | none => none
  | some (f, off) =>
    match GetOff (st.segs f) off with
    | none => none
    | some (_, v, _) => some v

/-! ### Startup scan (`Start`) -/

/-- The mutable locals of `Start`'s replay loop. -/
structure ScanAcc where
  index : List (List Nat × Nat × Nat)
  countF : List (Nat × Int)
  curOffset : Nat
  lastOldKey : List Nat
  blockKeys : List (List Nat × Bool)
  totalKeys : Nat

/-- Go map assignment into `block_keys`. -/
def bset (m : List (List Nat × Bool)) (k : List Nat) (b : Bool) : List (List Nat × Bool) :=
  if m.any (fun e => decide (e.1 = k)) then
    m.map (fun e => if e.1 = k then (k, b) else e)
  else m ++ [(k, b)]

/-- Go map read of `block_keys`. -/
def bget (m : List (List Nat × Bool)) (k : List Nat) : Option Bool :=
  (m.find? (fun e => decide (e.1 = k))).map (fun e => e.2)

/-- The replay loop of `Start`: decode records in sequence until the first
failure, maintaining index, counters, `block_keys` and `total_keys`.  The
fuel only bounds the iteration count; `Start` supplies enough for the loop
to stop at a decode failure. -/
def scanLoop (c : List Nat) (f : Nat) : Nat → ScanAcc → ScanAcc
  | 0, a => a
  | fuel + 1, a =>
    match GetOff c a.curOffset with
    | none => a
    | some (key, data, off) =>
      if 0 < data.length then
        scanLoop c f fuel
          { index := iset a.index key (f, a.curOffset),
            countF := cbump (match ilookup a.index key with
              | some (f0, _) => cbump a.countF f0 (-1)
              | none => a.countF) f 1,
            curOffset := off,
            lastOldKey := key,
            blockKeys := bset a.blockKeys key true,
            totalKeys := a.totalKeys + 1 }
      else
        match ilookup a.index key with
        | some (f0, _) =>
          scanLoop c f fuel
            { index := idel a.index key,
              countF := cbump a.countF f0 (-1),
              curOffset := off,
              lastOldKey := key,
              blockKeys := bset a.blockKeys key false,
              totalKeys := a.totalKeys }
        | none =>
          scanLoop c f fuel { a with curOffset := off, lastOldKey := key }

/-- The scan of segment `f` performed by `Start`. -/
def scanOf (st : PQState) (f : Nat) : ScanAcc :=
  scanLoop (st.segs f) f ((st.segs f).length + 1)
    { index := st.index, countF := st.countF, curOffset := 0,
      lastOldKey := st.lastOldKey, blockKeys := [], totalKeys := 0 }

/-- The still-live keys of the scanned segment, in `block_keys` order. -/
def liveKeys (st : PQState) (f : Nat) : List (List Nat) :=
  ((scanOf st f).blockKeys.filter (fun e => e.2)).map (fun e => e.1)

/-- `Start f`: switch the active segment to `f`, replay its records, and
enqueue its still-live keys for reallocation when the active share is below
10%.  In Go the guard is `float64(count_active_keys)/float64(total_keys) <
0.1`; for the record counts arising here this comparison — including the
NaN case `total_keys = 0`, which compares false — has exactly the value of
the integer test `10 * count_active_keys < total_keys`. -/
def Start (st : PQState) (f : Nat) : PQState :=
  let a := scanOf st f
  let countActive := (a.blockKeys.filter (fun e => e.2)).length
  { st with
    file := f,
    index := a.index,
    countF := a.countF,
    curOffset := a.curOffset,
    lastOldKey := a.lastOldKey,
    keysReallocate :=
      if 10 * countActive < a.totalKeys then
        some (st.keysReallocate.getD [] ++ liveKeys st f)
      else st.keysReallocate }

/-- `checkNewBlock`: rotate to the next segment when the active one exceeds
`MSize`. -/
def checkNewBlock (st : PQState) : PQState :=
  if st.msize < st.curOffset then Start st (st.file + 1) else st

/-- `checkGarbage`: drop the counter entry of every non-active segment whose
live count is zero (the file close/rename/compress is outside the state). -/
def checkGarbage (st : PQState) : PQState :=
  { st with countF :=
      st.countF.filter (fun e => !(decide (st.file ≠ e.1) && decide (e.2 = 0))) }

/-- The loop of `Reallocate`: for each enqueued key still indexed outside
the active segment, `Get` it and `Put` it anew (writes succeeding), then
check rotation; a `Put` error aborts the loop. -/
def reallocLoop : List (List Nat) → PQState → PQState × Option PErr
  | [] => fun st => (st, none)
  | k :: ks => fun st =>
    match ilookup st.index k with
    | some (f0, _) =>
      if f0 ≠ st.file then
        match Get st k with
        | some rec =>
          let r := Put st k (some rec) true true
          match r.err with
          | some e => (r.st, some e)
          | none => reallocLoop ks (checkNewBlock r.st)
        | none => reallocLoop ks st
      else reallocLoop ks st
    | none => reallocLoop ks st

/-- `Reallocate`: run the loop over the enqueued keys, clear the queue and
run a garbage pass (on an error the source returns early, leaving both). -/
def Reallocate (st : PQState) : PQState × Option PErr :=
  match st.keysReallocate with
  | some ks =>
    if ks ≠ [] then
      match reallocLoop ks st with
      | (st', some e) => (st', some e)
      | (st', none) => (checkGarbage { st' with keysReallocate := none }, none)
    else (checkGarbage { st with keysReallocate := none }, none)
  | none => (checkGarbage { st with keysReallocate := none }, none)

/-- `New`: the fresh state for a directory, with Go's defaults. -/
def freshPQ (segs0 : Nat → List Nat) : PQState :=
  { file := 1, segs := segs0, index := [], countF := [], curOffset := 0,
    msize := 100000000, keysReallocate := none, lastOldKey := [] }

/-- `New dir`: replay every segment file (in ascending numeric order, given
as `files`), or segment 1 when the directory is empty, then reallocate. -/
def New (segs0 : Nat → List Nat) (files : List Nat) : PQState × Option PErr :=
  let st0 := freshPQ segs0
  let st1 := if files ≠ [] then files.foldl Start st0 else Start st0 1
  Reallocate st1

/-- `ListAllKeys`. -/
def ListAllKeys (st : PQState) : List (List Nat) := st.index.map (fun e => e.1)

/-- `ListKeys p`: all index keys of length at least `|p|` whose first `|p|`
bytes equal `p` (every key when `p` is empty). -/
def ListKeys (st : PQState) (p : List Nat) : List (List Nat) :=
  (ListAllKeys st).filter (fun k =>
    if 0 < p.length then
      if p.length ≤ k.length then decide (k.take p.length = p) else false
    else true)

/-- `CountKeys p`: the number of index keys of length strictly greater than
`|p|` whose first `|p|` bytes equal `p` (all keys when `p` is empty). -/
def CountKeys (st : PQState) (p : List Nat) : Nat :=
  ((ListAllKeys st).filter (fun k =>
    if 0 < p.length then
      if p.length < k.length then decide (k.take p.length = p) else false
    else true)).length

/-- `IsKey`. -/
def IsKey (st : PQState) (key : List Nat) : Bool := (ilookup st.index key).isSome

/-! ### Queue model (`SQueue`) -/

/-- Hex digit value accepted by `strconv.ParseUint(s, 16, 64)`. -/
def hexVal (c : Nat) : Option Nat :=
  if 48 ≤ c ∧ c ≤ 57 then some (c - 48)
  else if 97 ≤ c ∧ c ≤ 102 then some (c - 87)
  else if 65 ≤ c ∧ c ≤ 70 then some (c - 55)
  else none

/-- Go `strconv.ParseUint(s, 16, 64)` with the error discarded as the source
does (0 on a syntax error; 64-bit overflow is not modelled). -/
def parseHexGo (l : List Nat) : Nat :=
  if l ≠ [] ∧ l.all (fun c => (hexVal c).isSome) then
    l.foldl (fun a c => a * 16 + (hexVal c).getD 0) 0
  else 0

/-- Little-endian base-16 digits with fuel (kernel-evaluable). -/
def hexDigits : Nat → Nat → List Nat
  | 0, _ => []
  | fuel + 1, n => if n = 0 then [] else n % 16 :: hexDigits fuel (n / 16)

/-- Go `strconv.FormatUint(n, 16)` (lowercase). -/
def formatHex (n : Nat) : List Nat :=
  if n = 0 then [48]
  else (hexDigits n n).reverse.map (fun d => if d < 10 then d + 48 else d + 87)

/-- One pass of the source's `bubbleSort` carrying the current element `x`
rightwards, returning the new list and whether any swap occurred. -/
def bubbleAux : List Nat → Nat → List Nat × Bool
  | [] => fun x => ([x], false)
  | y :: t => fun x =>
    if y < x then
      let r := bubbleAux t x
      (y :: r.1, true)
    else
      let r := bubbleAux t y
      (x :: r.1, r.2)

/-- One full pass of the source's `bubbleSort`. -/
def bubblePass : List Nat → List Nat × Bool
  | [] => ([], false)
  | x :: t => bubbleAux t x

/-- Up to `n` bubble passes with the source's early exit. -/
def bubbleRounds : Nat → List Nat → List Nat
  | 0 => fun l => l
  | n + 1 => fun l =>
    let r := bubblePass l
    if r.2 then bubbleRounds n r.1 else r.1

/-- `bubbleSort` from the source: at most `len - 1` full passes. -/
def bubbleSort (l : List Nat) : List Nat := bubbleRounds (l.length - 1) l

/-- Queue errors. -/
inductive QErr where
  | noMoreRecords
  | retrieveFail
deriving DecidableEq

/-- `SQueue` state, with no cache attached (the cache is optional in the
source and `retrieve` falls through to `pq.Get` without one).  The
singly-linked replay list is modelled as the list of its node ids. -/
structure SQ where
  pq : PQState
  max : Nat
  current : Nat
  countDisk : Nat
  countRead : Nat
  countDeleted : Nat
  oldRecs : List (List Nat)
  useLinkedList : Bool
  oldRecsCount : Nat

/-- `Init`: start the store over the directory, set `max := current :=` the
parse of the last replayed key, and build the replay list by parsing all
index keys, bubble-sorting, and re-formatting them. -/
def InitSQ (segs0 : Nat → List Nat) (files : List Nat) : Option SQ :=
  match New segs0 files with
  | (_, some _) => none
  | (pqSt, none) =>
    let currentKeys := ListAllKeys pqSt
    let m := if pqSt.lastOldKey ≠ [] then parseHexGo pqSt.lastOldKey else 0
    let olds := (bubbleSort (currentKeys.map parseHexGo)).map formatHex
    some { pq := pqSt, max := m, current := m,
           countDisk := currentKeys.length, countRead := 0, countDeleted := 0,
           oldRecs := olds, useLinkedList := decide (olds ≠ []),
           oldRecsCount := currentKeys.length }

/-- `Push` (no cache): bump `countDisk`, take the next write key, `Put`. -/
def Push (q : SQ) (r : List Nat) : Option PErr × SQ :=
  let m := q.max + 1
  let key := formatHex m
  let res := Put q.pq key (some r) true true
  (res.err, { q with max := m, countDisk := q.countDisk + 1, pq := res.st })

/-- Result of `Pop`: value, key, the `empty` flag, error, new queue state. -/
structure PopRes where
  val : Option (List Nat)
  key : List Nat
  empty : Bool
  err : Option QErr
  q : SQ

/-- `Pop` (no cache, so `retrieve` is `pq.Get`).  In replay mode the head of
the replay list is served and the list advanced (leaving replay mode when it
is exhausted); otherwise `current` is advanced while below `max`.  The
`empty` flag returned is `max == current` at return time, except that an
error while retrieving a replay-list value returns the flag's zero value
`false`. -/
def Pop (q : SQ) : PopRes :=
  if q.useLinkedList then
    match Get q.pq (q.oldRecs.headD []) with
    | none => ⟨none, q.oldRecs.headD [], false, some QErr.retrieveFail, q⟩
    | some r =>
      let q1 :=
        if q.oldRecs.tail ≠ [] then { q with oldRecs := q.oldRecs.tail }
        else { q with oldRecs := [], useLinkedList := false }
      let q2 :=
        { q1 with
          oldRecsCount := q1.oldRecsCount - 1,
          countDisk := q1.countDisk - 1,
          countRead := q1.countRead + 1 }
      ⟨some r, q.oldRecs.headD [], decide (q2.max = q2.current), none, q2⟩
  else
    if q.current < q.max then
      match Get q.pq (formatHex (q.current + 1)) with
      | none =>
        ⟨none, formatHex (q.current + 1), decide (q.max = q.current + 1),
         some QErr.retrieveFail, { q with current := q.current + 1 }⟩
      | some r =>
        let q2 :=
          { q with
            current := q.current + 1,
            countDisk := q.countDisk - 1,
            countRead := q.countRead + 1 }
        ⟨some r, formatHex (q.current + 1), decide (q2.max = q2.current), none, q2⟩
    else
      ⟨none, [], decide (q.max = q.current), some QErr.noMoreRecords, q⟩

instance : Inhabited PQState := ⟨freshPQ (fun _ => [])⟩

instance : Inhabited SQ :=
  ⟨{ pq := default, max := 0, current := 0, countDisk := 0, countRead := 0,
     countDeleted := 0, oldRecs := [], useLinkedList := false, oldRecsCount := 0 }⟩

/-! ### The queue reopen scenario -/

/-- Directory contents after `Push "x"; Push "y"` on a fresh queue: segment 1
holds the records for keys "1" and "2". -/
def segsScenario : Nat → List Nat :=
  fun f => if f = 1 then encodeRec [49] [120] ++ encodeRec [50] [121] else []

/-- The queue reopened on that directory. -/
def qScenario : SQ := (InitSQ segsScenario [1]).getD default

/-! ### Claim C2: codec round-trip -/

/-- C2.  For every key `k` with `1 ≤ |k| < 10^9` and value `v` with
`|v| < 10^9`, decoding the record produced by encoding `(k, v)` — at any
offset, with arbitrary surrounding bytes — returns exactly `k` and `v`, and
the returned next offset is the starting offset plus the total record length
`15 + SzLenKey + SzLenData + |k| + |v| + 3` (where `SzLenKey` and
`SzLenData` are the digit counts of `|k|` and `|v|`). -/
theorem C2_roundtrip (pre k v suf : List Nat) (hk1 : 1 ≤ k.length)
    (hk : k.length < 10 ^ 9) (hv : v.length < 10 ^ 9) :
    GetOff (pre ++ encodeRec k v ++ suf) pre.length =
      some (k, v, pre.length + 15 + (decRepr k.length).length +
        (decRepr v.length).length + k.length + v.length + 3) := by
  rw [encodeRec_eq_frame, GetOff_frame pre MAGICNUMBER (makeCheckSum v) k v suf rfl
    (makeCheckSum_length v) hk hv, if_pos rfl]

/-- Witness for C2 at `k = "1"`, `v = "x"`. -/
theorem C2_roundtrip_witness :
    1 ≤ ([49] : List Nat).length ∧ ([49] : List Nat).length < 10 ^ 9 ∧
    ([120] : List Nat).length < 10 ^ 9 ∧
    GetOff (([] : List Nat) ++ encodeRec [49] [120] ++ ([] : List Nat))
        (List.length ([] : List Nat)) =
      some ([49], [120], (List.length ([] : List Nat)) + 15 +
        (decRepr (List.length [49])).length + (decRepr (List.length [120])).length +
        List.length [49] + List.length [120] + 3) :=
  ⟨by decide, by decide, by decide,
    C2_roundtrip [] [49] [120] [] (by decide) (by decide) (by decide)⟩

/-! ### Claim C4: decode validation -/

/-- The record for ("1", "x") with its first magic byte corrupted to 'Q'. -/
def badMagicRec : List Nat := (encodeRec [49] [120]).set 0 81

/-- C4 counterexample.  The source's `GetOff` never inspects the magic
bytes: a record whose first three bytes are not "R3C" decodes successfully,
contradicting the claim that decode then returns an error. -/
theorem C4_counterexample :
    badMagicRec.take 3 ≠ MAGICNUMBER ∧
    GetOff badMagicRec 0 = some ([49], [120], 22) := by decide

/-- C4 amended.  Decoding performs no magic validation: a well-formed record
carrying any three bytes in place of the magic decodes successfully.  It
fails when the stored checksum field differs from the checksum of the value
slice, and when the record starts at or beyond end of file. -/
theorem C4_decode_validation :
    (∀ pre mg k v suf : List Nat, mg.length = 3 →
      k.length < 10 ^ 9 → v.length < 10 ^ 9 →
      GetOff (pre ++ frameRec mg (makeCheckSum v) k v ++ suf) pre.length =
        some (k, v, pre.length + 15 + (decRepr k.length).length +
          (decRepr v.length).length + k.length + v.length + 3)) ∧
    (∀ pre mg cks k v suf : List Nat, mg.length = 3 → cks.length = 10 →
      cks ≠ makeCheckSum v → k.length < 10 ^ 9 → v.length < 10 ^ 9 →
      GetOff (pre ++ frameRec mg cks k v ++ suf) pre.length = none) ∧
    (∀ c : List Nat, ∀ off : Nat, c.length ≤ off → GetOff c off = none) := by
  refine ⟨?_, ?_, ?_⟩
  · intro pre mg k v suf hmg hk hv
    rw [GetOff_frame pre mg (makeCheckSum v) k v suf hmg (makeCheckSum_length v) hk hv,
      if_pos rfl]
  · intro pre mg cks k v suf hmg hcks hne hk hv
    rw [GetOff_frame pre mg cks k v suf hmg hcks hk hv, if_neg hne]
  · intro c off h
    unfold GetOff
    rw [fread_none_of_le c off 15 (by norm_num) h]

/-- Witness for C4's amended statement: magic "QQQ" decodes; a corrupted
checksum field fails; decoding at end of file fails. -/
theorem C4_decode_validation_witness :
    GetOff ([] ++ frameRec [81, 81, 81] (makeCheckSum [120]) [49] [120] ++ [])
        (List.length ([] : List Nat)) =
      some ([49], [120], (List.length ([] : List Nat)) + 15 +
        (decRepr (List.length [49])).length + (decRepr (List.length [120])).length +
        List.length [49] + List.length [120] + 3) ∧
    GetOff ([] ++ frameRec [82, 51, 67] (List.replicate 10 48) [49] [120] ++ [])
        (List.length ([] : List Nat)) = none ∧
    GetOff [32] 1 = none :=
  ⟨C4_decode_validation.1 [] [81, 81, 81] [49] [120] [] (by decide) (by decide) (by decide),
   C4_decode_validation.2.1 [] [82, 51, 67] (List.replicate 10 48) [49] [120] []
     (by decide) (by decide) (by decide) (by decide) (by decide),
   C4_decode_validation.2.2 [32] 1 (by decide)⟩

/-! ### Association-list lemmas -/

/-- The key list of an index. -/
def keysOf (idx : List (List Nat × Nat × Nat)) : List (List Nat) :=
  idx.map (fun e => e.1)

theorem ilookup_cons (e : List Nat × Nat × Nat) (idx : List (List Nat × Nat × Nat))
    (k : List Nat) :
    ilookup (e :: idx) k = if e.1 = k then some e.2 else ilookup idx k := by
  unfold ilookup
  by_cases h : e.1 = k
  · simp [List.find?, h]
  · simp [List.find?, h]

theorem any_eq_ilookup (idx : List (List Nat × Nat × Nat)) (k : List Nat) :
    idx.any (fun e => decide (e.1 = k)) = (ilookup idx k).isSome := by
  induction idx with
  | nil => rfl
  | cons e t ih =>
    rw [List.any_cons, ilookup_cons, ih]
    by_cases h : e.1 = k <;> simp [h]

theorem ilookup_iset_self (idx : List (List Nat × Nat × Nat)) (k : List Nat)
    (v : Nat × Nat) : ilookup (iset idx k v) k = some v := by
  unfold iset
  by_cases hany : idx.any (fun e => decide (e.1 = k)) = true
  · rw [if_pos hany]
    induction idx with
    | nil => simp at hany
    | cons e t ih =>
      rw [List.any_cons] at hany
      rw [List.map_cons, ilookup_cons]
      by_cases h : e.1 = k
      · rw [if_pos h]
        simp
      · rw [if_neg h]
        simp only [h, if_false]
        exact ih (by simpa [h] using hany)
  · rw [if_neg hany]
    induction idx with
    | nil => simp [ilookup_cons]
    | cons e t ih =>
      rw [List.any_cons] at hany
      rw [List.cons_append, ilookup_cons]
      have he : ¬ e.1 = k := by
        intro h
        exact hany (by simp [h])
      rw [if_neg he]
      exact ih (by intro h; exact hany (by simp [h]))

theorem ilookup_map_other (idx : List (List Nat × Nat × Nat)) (k k' : List Nat)
    (v : Nat × Nat) (h : k' ≠ k) :
    ilookup (idx.map (fun e => if e.1 = k then (k, v) else e)) k' = ilookup idx k' := by
  induction idx with
  | nil => rfl
  | cons e t ih =>
    rw [List.map_cons, ilookup_cons, ilookup_cons]
    by_cases he : e.1 = k
    · rw [if_pos he]
      have hkk : ¬ ((k, v).1 = k') := fun hh => h (hh.symm)
      rw [if_neg hkk, if_neg (by rw [he]; exact fun hh => h hh.symm)]
      exact ih
    · rw [if_neg he]
      by_cases he' : e.1 = k'
      · rw [if_pos he', if_pos he']
      · rw [if_neg he', if_neg he']
        exact ih

theorem ilookup_append_one_other (idx : List (List Nat × Nat × Nat)) (k k' : List Nat)
    (v : Nat × Nat) (h : k' ≠ k) : ilookup (idx ++ [(k, v)]) k' = ilookup idx k' := by
  induction idx with
  | nil =>
    rw [List.nil_append, ilookup_cons]
    rw [if_neg (show ¬ ((k, v).1 = k') from fun hh => h hh.symm)]
  | cons e t ih =>
    rw [List.cons_append, ilookup_cons, ilookup_cons]
    by_cases he : e.1 = k'
    · rw [if_pos he, if_pos he]
    · rw [if_neg he, if_neg he]
      exact ih

theorem ilookup_iset_other (idx : List (List Nat × Nat × Nat)) (k k' : List Nat)
    (v : Nat × Nat) (h : k' ≠ k) : ilookup (iset idx k v) k' = ilookup idx k' := by
  unfold iset
  split
  · exact ilookup_map_other idx k k' v h
  · exact ilookup_append_one_other idx k k' v h

theorem idel_cons (e : List Nat × Nat × Nat) (idx : List (List Nat × Nat × Nat))
    (k : List Nat) :
    idel (e :: idx) k = if e.1 = k then idel idx k else e :: idel idx k := by
  unfold idel
  rw [List.filter_cons]
  by_cases he : e.1 = k <;> simp [he]

theorem ilookup_idel_self (idx : List (List Nat × Nat × Nat)) (k : List Nat) :
    ilookup (idel idx k) k = none := by
  induction idx with
  | nil => rfl
  | cons e t ih =>
    rw [idel_cons]
    by_cases he : e.1 = k
    · rw [if_pos he]
      exact ih
    · rw [if_neg he, ilookup_cons, if_neg he]
      exact ih

theorem ilookup_idel_other (idx : List (List Nat × Nat × Nat)) (k k' : List Nat)
    (h : k' ≠ k) : ilookup (idel idx k) k' = ilookup idx k' := by
  induction idx with
  | nil => rfl
  | cons e t ih =>
    rw [idel_cons, ilookup_cons]
    by_cases he : e.1 = k
    · rw [if_pos he, ih, if_neg (by rw [he]; exact fun hh => h hh.symm)]
    · rw [if_neg he, ilookup_cons, ih]

theorem mem_idel (idx : List (List Nat × Nat × Nat)) (k : List Nat)
    (e : List Nat × Nat × Nat) (h : e ∈ idel idx k) : e ∈ idx :=
  List.mem_of_mem_filter h

theorem mem_iset (idx : List (List Nat × Nat × Nat)) (k : List Nat) (v : Nat × Nat)
    (e : List Nat × Nat × Nat) (h : e ∈ iset idx k v) : e = (k, v) ∨ e ∈ idx := by
  unfold iset at h
  split at h
  · rw [List.mem_map] at h
    obtain ⟨a, ha, rfl⟩ := h
    by_cases hak : a.1 = k
    · left
      simp [hak]
    · right
      simpa [hak] using ha
  · rw [List.mem_append] at h
    rcases h with h | h
    · right
      exact h
    · left
      simpa using h

theorem keysOf_iset (idx : List (List Nat × Nat × Nat)) (k : List Nat) (v : Nat × Nat) :
    keysOf (iset idx k v) =
      if idx.any (fun e => decide (e.1 = k)) then keysOf idx else keysOf idx ++ [k] := by
  unfold iset keysOf
  split
  · rw [List.map_map]
    apply List.map_congr_left
    intro e _
    by_cases he : e.1 = k <;> simp [he]
  · simp

theorem length_iset (idx : List (List Nat × Nat × Nat)) (k : List Nat) (v : Nat × Nat) :
    (iset idx k v).length =
      if idx.any (fun e => decide (e.1 = k)) then idx.length else idx.length + 1 := by
  unfold iset
  split <;> simp

theorem nodup_keysOf_iset (idx : List (List Nat × Nat × Nat)) (k : List Nat)
    (v : Nat × Nat) (h : (keysOf idx).Nodup) : (keysOf (iset idx k v)).Nodup := by
  rw [keysOf_iset]
  split
  · exact h
  · rename_i hany
    rw [List.nodup_append]
    refine ⟨h, List.nodup_singleton k, ?_⟩
    intro a ha hb
    rw [List.mem_singleton] at hb
    subst hb
    rw [keysOf, List.mem_map] at ha
    obtain ⟨e, he, hek⟩ := ha
    exact hany (List.any_of_mem he (by simp [hek]))

theorem nodup_keysOf_idel (idx : List (List Nat × Nat × Nat)) (k : List Nat)
    (h : (keysOf idx).Nodup) : (keysOf (idel idx k)).Nodup := by
  induction idx with
  | nil => exact h
  | cons e t ih =>
    rw [keysOf, List.map_cons, List.nodup_cons] at h
    rw [idel_cons]
    by_cases he : e.1 = k
    · rw [if_pos he]
      exact ih h.2
    · rw [if_neg he, keysOf, List.map_cons, List.nodup_cons]
      refine ⟨fun hmem => ?_, ih h.2⟩
      rw [List.mem_map] at hmem
      obtain ⟨a, ha, hak⟩ := hmem
      exact h.1 (by rw [keysOf] at *; exact List.mem_map.mpr ⟨a, mem_idel t k a ha, hak⟩)

theorem length_idel (idx : List (List Nat × Nat × Nat)) (k : List Nat)
    (hnd : (keysOf idx).Nodup) (hmem : (ilookup idx k).isSome) :
    (idel idx k).length + 1 = idx.length := by
  induction idx with
  | nil => simp [ilookup] at hmem
  | cons e t ih =>
    rw [keysOf, List.map_cons, List.nodup_cons] at hnd
    rw [ilookup_cons] at hmem
    rw [idel_cons]
    by_cases he : e.1 = k
    · rw [if_pos he]
      have htk : idel t k = t := by
        apply List.filter_eq_self.mpr
        intro a ha
        rw [decide_eq_true_eq]
        intro hak
        exact hnd.1 (List.mem_map.mpr ⟨a, ha, by rw [hak, he]⟩)
      rw [htk, List.length_cons]
    · rw [if_neg he] at hmem
      rw [if_neg he, List.length_cons, List.length_cons, ih hnd.2 hmem]

/-! ### Counter-map lemmas -/

theorem sumC_nil : sumC [] = 0 := rfl

theorem sumC_cons (e : Nat × Int) (m : List (Nat × Int)) :
    sumC (e :: m) = e.2 + sumC m := by
  simp [sumC]

theorem sumC_append_one (m : List (Nat × Int)) (e : Nat × Int) :
    sumC (m ++ [e]) = sumC m + e.2 := by
  simp [sumC]

theorem cbump_cons (e : Nat × Int) (m : List (Nat × Int)) (f : Nat) (d : Int) :
    cbump (e :: m) f d =
      if e.1 = f then
        (e.1, e.2 + d) :: m.map (fun x => if x.1 = f then (x.1, x.2 + d) else x)
      else
        (if m.any (fun x => decide (x.1 = f)) then
          e :: m.map (fun x => if x.1 = f then (x.1, x.2 + d) else x)
        else (e :: m) ++ [(f, d)]) := by
  unfold cbump
  rw [List.any_cons]
  by_cases he : e.1 = f
  · simp [he]
  · by_cases hm : m.any (fun x => decide (x.1 = f)) <;> simp [he, hm]

theorem sumC_cbump (m : List (Nat × Int)) (f : Nat) (d : Int)
    (h : (m.map (fun e => e.1)).Nodup) : sumC (cbump m f d) = sumC m + d := by
  induction m with
  | nil => simp [cbump, sumC]
  | cons e t ih =>
    rw [List.map_cons, List.nodup_cons] at h
    rw [cbump_cons]
    by_cases he : e.1 = f
    · rw [if_pos he]
      have hmap : t.map (fun x => if x.1 = f then (x.1, x.2 + d) else x) = t := by
        have h' : ∀ x ∈ t, (if x.1 = f then (x.1, x.2 + d) else x) = id x := by
          intro x hx
          have hxf : ¬ x.1 = f := fun hxf =>
            h.1 (List.mem_map.mpr ⟨x, hx, by rw [hxf, he]⟩)
          simp [hxf]
        rw [List.map_congr_left h', List.map_id]
      rw [hmap, sumC_cons, sumC_cons]
      ring
    · rw [if_neg he]
      by_cases hm : t.any (fun x => decide (x.1 = f)) = true
      · rw [if_pos hm, sumC_cons, sumC_cons]
        have : t.map (fun x => if x.1 = f then (x.1, x.2 + d) else x) = cbump t f d := by
          unfold cbump
          rw [if_pos hm]
        rw [this, ih h.2]
        ring
      · rw [if_neg hm, sumC_append_one, sumC_cons]

theorem nodup_keys_cbump (m : List (Nat × Int)) (f : Nat) (d : Int)
    (h : (m.map (fun e => e.1)).Nodup) :
    ((cbump m f d).map (fun e => e.1)).Nodup := by
  unfold cbump
  split
  · rw [List.map_map]
    have : ((m.map (fun e => if e.1 = f then (e.1, e.2 + d) else e)).map (fun e => e.1)) =
        m.map (fun e => e.1) := by
      rw [List.map_map]
      apply List.map_congr_left
      intro e _
      by_cases he : e.1 = f <;> simp [he]
    rw [← List.map_map, this]
    exact h
  · rename_i hany
    rw [List.map_append]
    rw [List.nodup_append]
    refine ⟨h, by simp, ?_⟩
    intro a ha hb
    simp only [List.map_cons, List.map_nil, List.mem_singleton] at hb
    subst hb
    rw [List.mem_map] at ha
    obtain ⟨e, he, hef⟩ := ha
    exact hany (List.any_of_mem he (by simp [hef]))

theorem sumC_filter_zero (m : List (Nat × Int)) (p : Nat × Int → Bool)
    (h : ∀ e ∈ m, p e = false → e.2 = 0) : sumC (m.filter p) = sumC m := by
  induction m with
  | nil => rfl
  | cons e t ih =>
    rw [List.filter_cons, sumC_cons]
    have ht : ∀ x ∈ t, p x = false → x.2 = 0 := fun x hx => h x (List.mem_cons_of_mem _ hx)
    by_cases hp : p e = true
    · rw [if_pos hp, sumC_cons, ih ht]
    · rw [if_neg hp]
      rw [h e (List.mem_cons_self e t) (by simpa using hp), ih ht]
      ring

theorem nodup_keys_filter (m : List (Nat × Int)) (p : Nat × Int → Bool)
    (h : (m.map (fun e => e.1)).Nodup) :
    ((m.filter p).map (fun e => e.1)).Nodup :=
  List.Nodup.sublist (List.Sublist.map _ (List.filter_sublist m)) h

/-! ### `putBody` and `Put` case lemmas -/

theorem putBody_put_new (st : PQState) (key v : List Nat)
    (hl : ilookup st.index key = none) :
    putBody st key (some v) true =
      ⟨{ st with
          segs := (fun f => if f = st.file then st.segs f ++ encodeRec key v else st.segs f),
          curOffset := st.curOffset + (encodeRec key v).length,
          index := iset st.index key (st.file, st.curOffset),
          countF := cbump st.countF st.file 1 }, none,
        [⟨st.file, encodeRec key v, true⟩]⟩ := by
  unfold putBody
  rw [if_neg (by simp)]
  simp only [hl, Option.isSome_some, Bool.true_or, if_true, Option.getD_some]

theorem putBody_put_upd (st : PQState) (key v : List Nat) (f0 o0 : Nat)
    (hl : ilookup st.index key = some (f0, o0)) :
    putBody st key (some v) true =
      ⟨{ st with
          segs := (fun f => if f = st.file then st.segs f ++ encodeRec key v else st.segs f),
          curOffset := st.curOffset + (encodeRec key v).length,
          index := iset st.index key (st.file, st.curOffset),
          countF := cbump (cbump st.countF f0 (-1)) st.file 1 }, none,
        [⟨st.file, encodeRec key v, true⟩]⟩ := by
  unfold putBody
  rw [if_neg (by simp)]
  simp only [hl, Option.isSome_some, Bool.true_or, if_true, Option.getD_some]

theorem putBody_del (st : PQState) (key : List Nat) (f0 o0 : Nat)
    (hl : ilookup st.index key = some (f0, o0)) :
    putBody st key none true =
      ⟨{ st with
          segs := (fun f => if f = f0 then st.segs f ++ encodeRec key [] else st.segs f),
          curOffset := if f0 = st.file then st.curOffset + (encodeRec key []).length
            else st.curOffset,
          index := idel st.index key,
          countF := cbump st.countF f0 (-1) }, none,
        [⟨f0, encodeRec key [], true⟩]⟩ := by
  unfold putBody
  rw [if_neg (by simp [hl])]
  simp only [hl, Option.isSome_none, Bool.false_or, Option.getD_some, Option.getD_none]
  by_cases hf : f0 = st.file <;> simp [hf]

theorem putBody_noexist (st : PQState) (key : List Nat) (wOk : Bool)
    (hl : ilookup st.index key = none) :
    putBody st key none wOk = ⟨st, some PErr.keyNotExist, []⟩ := by
  unfold putBody
  rw [if_pos ⟨rfl, hl⟩]

theorem putBody_fail_some (st : PQState) (key v : List Nat) :
    putBody st key (some v) false =
      ⟨{ st with curOffset := st.curOffset + (encodeRec key v).length },
        some PErr.writeFail,
        [⟨st.file, encodeRec key v, false⟩]⟩ := by
  unfold putBody
  rw [if_neg (by simp)]
  simp only [Option.isSome_some, Bool.true_or, if_true, Option.getD_some]
  rfl

theorem putBody_fail_fields (st : PQState) (key : List Nat) (data : Option (List Nat))
    (h : ¬ (data = none ∧ ilookup st.index key = none)) :
    (putBody st key data false).st.index = st.index ∧
      (putBody st key data false).st.countF = st.countF ∧
      (putBody st key data false).err = some PErr.writeFail := by
  unfold putBody
  rw [if_neg h]
  exact ⟨rfl, rfl, rfl⟩

theorem crossSeg_true (st : PQState) (key : List Nat) (f0 o0 : Nat)
    (hl : ilookup st.index key = some (f0, o0)) (hf : f0 ≠ st.file) :
    crossSeg st key = true := by
  unfold crossSeg
  rw [hl]
  simpa using hf

theorem crossSeg_false_none (st : PQState) (key : List Nat)
    (hl : ilookup st.index key = none) : crossSeg st key = false := by
  unfold crossSeg
  rw [hl]

theorem crossSeg_false_here (st : PQState) (key : List Nat) (o0 : Nat)
    (hl : ilookup st.index key = some (st.file, o0)) : crossSeg st key = false := by
  unfold crossSeg
  rw [hl]
  simp

theorem Put_empty (st : PQState) (data : Option (List Nat)) (w1 w2 : Bool) :
    Put st [] data w1 w2 = ⟨st, some PErr.emptyKey, []⟩ := by
  unfold Put
  rw [if_pos rfl]

theorem Put_nocross (st : PQState) (key : List Nat) (data : Option (List Nat))
    (w1 w2 : Bool) (hk : key ≠ []) (hc : (data.isSome && crossSeg st key) = false) :
    Put st key data w1 w2 = putBody st key data w1 := by
  unfold Put
  rw [if_neg hk, if_neg (by rw [hc]; simp)]

theorem Put_cross (st : PQState) (key v : List Nat) (w1 w2 : Bool)
    (hk : key ≠ []) (hcr : crossSeg st key = true) :
    Put st key (some v) w1 w2 =
      ⟨(putBody (putBody st key none w1).st key (some v) w2).st,
       (putBody (putBody st key none w1).st key (some v) w2).err,
       (putBody st key none w1).evs ++
         (putBody (putBody st key none w1).st key (some v) w2).evs⟩ := by
  unfold Put
  rw [if_neg hk, if_pos (by rw [hcr]; simp)]

/-! ### Claim C3: live counts match the index size -/

/-- The counting invariant: index keys unique, counter keys unique, and the
per-segment live counters sum to the index size. -/
def Inv (st : PQState) : Prop :=
  (keysOf st.index).Nodup ∧ (st.countF.map (fun e => e.1)).Nodup ∧
    sumC st.countF = (st.index.length : Int)

instance (st : PQState) : Decidable (Inv st) := by
  unfold Inv
  infer_instance

theorem putBody_Inv (st : PQState) (key : List Nat) (data : Option (List Nat))
    (wOk : Bool) (h : Inv st) : Inv (putBody st key data wOk).st := by
  obtain ⟨h1, h2, h3⟩ := h
  cases data with
  | some v =>
    cases wOk with
    | false =>
      rw [putBody_fail_some]
      exact ⟨h1, h2, h3⟩
    | true =>
      cases hl : ilookup st.index key with
      | none =>
        rw [putBody_put_new st key v hl]
        have hany : st.index.any (fun e => decide (e.1 = key)) = false := by
          rw [any_eq_ilookup, hl]
          rfl
        refine ⟨nodup_keysOf_iset _ _ _ h1, nodup_keys_cbump _ _ _ h2, ?_⟩
        rw [sumC_cbump _ _ _ h2, length_iset, hany, if_neg Bool.false_ne_true]
        push_cast
        omega
      | some fo =>
        obtain ⟨f0, o0⟩ := fo
        rw [putBody_put_upd st key v f0 o0 hl]
        have hany : st.index.any (fun e => decide (e.1 = key)) = true := by
          rw [any_eq_ilookup, hl]
          rfl
        refine ⟨nodup_keysOf_iset _ _ _ h1,
          nodup_keys_cbump _ _ _ (nodup_keys_cbump _ _ _ h2), ?_⟩
        rw [sumC_cbump _ _ _ (nodup_keys_cbump _ _ _ h2), sumC_cbump _ _ _ h2,
          length_iset, hany, if_pos rfl]
        omega
  | none =>
    cases hl : ilookup st.index key with
    | none =>
      rw [putBody_noexist st key wOk hl]
      exact ⟨h1, h2, h3⟩
    | some fo =>
      obtain ⟨f0, o0⟩ := fo
      cases wOk with
      | false =>
        obtain ⟨hi, hc, _⟩ := putBody_fail_fields st key none (by simp [hl])
        refine ⟨?_, ?_, ?_⟩
        · rw [hi]; exact h1
        · rw [hc]; exact h2
        · rw [hi, hc]; exact h3
      | true =>
        rw [putBody_del st key f0 o0 hl]
        have hlen := length_idel st.index key h1 (by rw [hl]; rfl)
        refine ⟨nodup_keysOf_idel _ _ h1, nodup_keys_cbump _ _ _ h2, ?_⟩
        rw [sumC_cbump _ _ _ h2]
        push_cast
        omega

theorem Put_Inv (st : PQState) (key : List Nat) (data : Option (List Nat))
    (w1 w2 : Bool) (h : Inv st) : Inv (Put st key data w1 w2).st := by
  by_cases hk : key = []
  · subst hk
    rw [Put_empty]
    exact h
  · by_cases hcr : (data.isSome && crossSeg st key) = true
    · cases data with
      | none => simp at hcr
      | some v =>
        rw [Put_cross st key v w1 w2 hk (by simpa using hcr)]
        exact putBody_Inv _ _ _ _ (putBody_Inv _ _ _ _ h)
    · rw [Put_nocross st key data w1 w2 hk (by simpa using hcr)]
      exact putBody_Inv _ _ _ _ h

/-- The invariant on the scan loop's accumulator. -/
def InvA (a : ScanAcc) : Prop :=
  (keysOf a.index).Nodup ∧ (a.countF.map (fun e => e.1)).Nodup ∧
    sumC a.countF = (a.index.length : Int)

theorem scanLoop_InvA (c : List Nat) (f : Nat) (fuel : Nat) :
    ∀ a : ScanAcc, InvA a → InvA (scanLoop c f fuel a) := by
  induction fuel with
  | zero => exact fun a h => h
  | succ n ih =>
    intro a h
    obtain ⟨h1, h2, h3⟩ := h
    rw [scanLoop]
    cases hg : GetOff c a.curOffset with
    | none => exact ⟨h1, h2, h3⟩
    | some kvo =>
      obtain ⟨key, data, off⟩ := kvo
      dsimp only
      by_cases hd : 0 < data.length
      · rw [if_pos hd]
        apply ih
        cases hl : ilookup a.index key with
        | none =>
          have hany : a.index.any (fun e => decide (e.1 = key)) = false := by
            rw [any_eq_ilookup, hl]
            rfl
          dsimp only
          refine ⟨nodup_keysOf_iset _ _ _ h1, nodup_keys_cbump _ _ _ h2, ?_⟩
          rw [sumC_cbump _ _ _ h2, length_iset, hany, if_neg Bool.false_ne_true]
          push_cast
          omega
        | some fo =>
          obtain ⟨f0, o0⟩ := fo
          have hany : a.index.any (fun e => decide (e.1 = key)) = true := by
            rw [any_eq_ilookup, hl]
            rfl
          dsimp only
          refine ⟨nodup_keysOf_iset _ _ _ h1,
            nodup_keys_cbump _ _ _ (nodup_keys_cbump _ _ _ h2), ?_⟩
          rw [sumC_cbump _ _ _ (nodup_keys_cbump _ _ _ h2), sumC_cbump _ _ _ h2,
            length_iset, hany, if_pos rfl]
          omega
      · rw [if_neg hd]
        cases hl : ilookup a.index key with
        | none =>
          apply ih
          exact ⟨h1, h2, h3⟩
        | some fo =>
          obtain ⟨f0, o0⟩ := fo
          dsimp only
          apply ih
          have hlen := length_idel a.index key h1 (by rw [hl]; rfl)
          refine ⟨nodup_keysOf_idel _ _ h1, nodup_keys_cbump _ _ _ h2, ?_⟩
          rw [sumC_cbump _ _ _ h2]
          push_cast
          omega

theorem Start_Inv (st : PQState) (f : Nat) (h : Inv st) : Inv (Start st f) := by
  obtain ⟨h1, h2, h3⟩ := h
  have := scanLoop_InvA (st.segs f) f ((st.segs f).length + 1)
    { index := st.index, countF := st.countF, curOffset := 0,
      lastOldKey := st.lastOldKey, blockKeys := [], totalKeys := 0 } ⟨h1, h2, h3⟩
  exact this

theorem checkNewBlock_Inv (st : PQState) (h : Inv st) : Inv (checkNewBlock st) := by
  unfold checkNewBlock
  split
  · exact Start_Inv st _ h
  · exact h

theorem checkGarbage_Inv (st : PQState) (h : Inv st) : Inv (checkGarbage st) := by
  obtain ⟨h1, h2, h3⟩ := h
  refine ⟨h1, nodup_keys_filter _ _ h2, ?_⟩
  unfold checkGarbage
  dsimp only
  rw [sumC_filter_zero]
  · exact h3
  · intro e _ hp
    simp only [Bool.not_eq_false', Bool.and_eq_true, decide_eq_true_eq] at hp
    exact hp.2

theorem reallocLoop_Inv (ks : List (List Nat)) :
    ∀ st : PQState, Inv st → Inv (reallocLoop ks st).1 := by
  induction ks with
  | nil => exact fun st h => h
  | cons k t ih =>
    intro st h
    rw [reallocLoop]
    dsimp only
    cases hl : ilookup st.index k with
    | none => exact ih st h
    | some fo =>
      obtain ⟨f0, o0⟩ := fo
      dsimp only
      by_cases hf : f0 ≠ st.file
      · rw [if_pos hf]
        cases hG : Get st k with
        | none => exact ih st h
        | some r =>
          dsimp only
          cases hE : (Put st k (some r) true true).err with
          | some e => exact Put_Inv st k (some r) true true h
          | none => exact ih _ (checkNewBlock_Inv _ (Put_Inv st k (some r) true true h))
      · rw [if_neg hf]
        exact ih st h

theorem Reallocate_Inv (st : PQState) (h : Inv st) : Inv (Reallocate st).1 := by
  unfold Reallocate
  cases hks : st.keysReallocate with
  | none => exact checkGarbage_Inv _ h
  | some ks =>
    dsimp only
    by_cases hne : ks ≠ []
    · rw [if_pos hne]
      have hloop := reallocLoop_Inv ks st h
      cases hr : reallocLoop ks st with
      | mk st' e =>
        rw [hr] at hloop
        cases e with
        | some e0 => exact hloop
        | none => exact checkGarbage_Inv _ hloop
    · rw [if_neg hne]
      exact checkGarbage_Inv _ h

/-- C3.  The sum of the per-segment live counters equals the number of index
entries in every state satisfying the store invariant, and the invariant is
preserved by `Put` (hence `Delete`), by the startup replay `Start`, by
`checkGarbage`, and by `Reallocate` — including their failure paths. -/
theorem C3_live_count_invariant :
    (∀ st : PQState, Inv st → sumC st.countF = (st.index.length : Int)) ∧
    (∀ st : PQState, ∀ key : List Nat, ∀ data : Option (List Nat), ∀ w1 w2 : Bool,
      Inv st → Inv (Put st key data w1 w2).st) ∧
    (∀ st : PQState, ∀ f : Nat, Inv st → Inv (Start st f)) ∧
    (∀ st : PQState, Inv st → Inv (checkGarbage st)) ∧
    (∀ st : PQState, Inv st → Inv (Reallocate st).1) :=
  ⟨fun _ h => h.2.2, fun st k d w1 w2 h => Put_Inv st k d w1 w2 h,
   fun st f h => Start_Inv st f h, fun st h => checkGarbage_Inv st h,
   fun st h => Reallocate_Inv st h⟩

/-- Witness for C3 on the two-record scenario state. -/
theorem C3_live_count_invariant_witness :
    Inv (New segsScenario [1]).1 ∧
    sumC (New segsScenario [1]).1.countF = (((New segsScenario [1]).1.index.length : Nat) : Int) ∧
    Inv (Put (New segsScenario [1]).1 [51] (some [122]) true true).st :=
  ⟨by decide, C3_live_count_invariant.1 _ (by decide),
   C3_live_count_invariant.2.1 _ [51] (some [122]) true true (by decide)⟩

/-! ### The cross-segment `Put` in detail -/

/-- Full description of a cross-segment `Put` with both writes succeeding:
no error; active segment, rotation threshold unchanged; `CurOffset` advanced
by the new record; the delete-record written to the old segment first, the
new record to the active one second; the key now indexed in the active
segment at the old `CurOffset`; all other keys untouched. -/
theorem put_cross_fields (st : PQState) (k v : List Nat) (f0 o0 : Nat)
    (hk : k ≠ []) (hl : ilookup st.index k = some (f0, o0)) (hf : f0 ≠ st.file) :
    (Put st k (some v) true true).err = none ∧
    (Put st k (some v) true true).st.file = st.file ∧
    (Put st k (some v) true true).st.msize = st.msize ∧
    (Put st k (some v) true true).st.curOffset = st.curOffset + (encodeRec k v).length ∧
    ilookup (Put st k (some v) true true).st.index k = some (st.file, st.curOffset) ∧
    (∀ k' : List Nat, k' ≠ k →
      ilookup (Put st k (some v) true true).st.index k' = ilookup st.index k') ∧
    (Put st k (some v) true true).evs =
      [⟨f0, encodeRec k [], true⟩, ⟨st.file, encodeRec k v, true⟩] := by
  rw [Put_cross st k v true true hk (crossSeg_true st k f0 o0 hl hf),
    putBody_del st k f0 o0 hl]
  dsimp only
  rw [if_neg hf]
  rw [putBody_put_new
    { st with
        segs := (fun f => if f = f0 then st.segs f ++ encodeRec k [] else st.segs f),
        curOffset := st.curOffset,
        index := idel st.index k,
        countF := cbump st.countF f0 (-1) } k v (ilookup_idel_self st.index k)]
  dsimp only
  refine ⟨rfl, rfl, rfl, rfl, ilookup_iset_self _ _ _, ?_, rfl⟩
  intro k' hk'
  rw [ilookup_iset_other _ _ _ _ hk', ilookup_idel_other _ _ _ hk']

/-! ### Claim C5: two-phase cross-segment write -/

/-- C5.  For a `Put` of a non-empty value whose key is currently indexed in
a segment `f0` other than the active one, the store first writes the
delete-record (empty value) into `f0` — not the active segment — then the
new record into the active segment, and afterwards the index maps the key to
the active segment. -/
theorem C5_cross_segment_two_phase (st : PQState) (k v : List Nat) (f0 o0 : Nat)
    (hk : k ≠ []) (hv : v ≠ []) (hl : ilookup st.index k = some (f0, o0))
    (hf : f0 ≠ st.file) :
    (Put st k (some v) true true).evs =
      [⟨f0, encodeRec k [], true⟩, ⟨st.file, encodeRec k v, true⟩] ∧
    (Put st k (some v) true true).err = none ∧
    ilookup (Put st k (some v) true true).st.index k = some (st.file, st.curOffset) := by
  obtain ⟨he, _, _, _, hself, _, hevs⟩ := put_cross_fields st k v f0 o0 hk hl hf
  exact ⟨hevs, he, hself⟩

/-- The concrete state for the C5/C10 witnesses: key "a" lives in segment 1,
segment 2 is active. -/
def stCross : PQState :=
  { file := 2, segs := fun _ => [], index := [([97], (1, 0))], countF := [(1, 1)],
    curOffset := 0, msize := 100000000, keysReallocate := none, lastOldKey := [] }

/-- Witness for C5. -/
theorem C5_cross_segment_two_phase_witness :
    ([97] : List Nat) ≠ [] ∧ ([118] : List Nat) ≠ [] ∧
    ilookup stCross.index [97] = some (1, 0) ∧ (1 : Nat) ≠ stCross.file ∧
    (Put stCross [97] (some [118]) true true).evs =
      [⟨1, encodeRec [97] [], true⟩, ⟨stCross.file, encodeRec [97] [118], true⟩] ∧
    (Put stCross [97] (some [118]) true true).err = none ∧
    ilookup (Put stCross [97] (some [118]) true true).st.index [97] =
      some (stCross.file, stCross.curOffset) := by
  have h := C5_cross_segment_two_phase stCross [97] [118] 1 0 (by decide) (by decide)
    (by decide) (by decide)
  exact ⟨by decide, by decide, by decide, by decide, h.1, h.2.1, h.2.2⟩

/-! ### Claim C8: no length validation in Put -/

/-- C8 (refuting the claim).  `Put` performs no length validation at all:
for any fresh key of length at least 10^9 (whose decimal length needs more
than one digit, so the one-byte `SzLenKey` header field cannot carry it),
`Put` succeeds and appends the record to the active segment instead of
failing with an error. -/
theorem C8_no_length_check (st : PQState) (k v : List Nat)
    (hk : 10 ^ 9 ≤ k.length) (hnew : ilookup st.index k = none) :
    (Put st k (some v) true true).err = none ∧
    (Put st k (some v) true true).st.segs st.file = st.segs st.file ++ encodeRec k v := by
  have hke : k ≠ [] := by
    intro h
    rw [h] at hk
    simp at hk
  rw [Put_nocross st k (some v) true true hke
    (by rw [crossSeg_false_none st k hnew]; simp)]
  rw [putBody_put_new st k v hnew]
  dsimp only
  exact ⟨rfl, by rw [if_pos rfl]⟩

/-- Witness for C8 with a key of length exactly 10^9 on a fresh store. -/
theorem C8_no_length_check_witness :
    10 ^ 9 ≤ (List.replicate (10 ^ 9) 97 : List Nat).length ∧
    ilookup (freshPQ (fun _ => [])).index (List.replicate (10 ^ 9) 97) = none ∧
    (Put (freshPQ (fun _ => [])) (List.replicate (10 ^ 9) 97)
      (some [118]) true true).err = none :=
  ⟨by rw [List.length_replicate], rfl,
   (C8_no_length_check (freshPQ (fun _ => [])) (List.replicate (10 ^ 9) 97) [118]
     (by rw [List.length_replicate]) rfl).1⟩

/-! ### Claim C10: failed writes -/

/-- C10 counterexample.  A cross-segment `Put` whose re-entrant delete write
succeeds but whose main write fails returns the write error, yet the index
has lost the key and the old segment's live counter was decremented — the
claim that the index and all live counters are left exactly as before is
false. -/
theorem C10_counterexample :
    (Put stCross [97] (some [118]) true false).err = some PErr.writeFail ∧
    stCross.index = [([97], (1, 0))] ∧
    (Put stCross [97] (some [118]) true false).st.index = [] ∧
    stCross.countF = [(1, 1)] ∧
    (Put stCross [97] (some [118]) true false).st.countF = [(1, 0)] := by decide

/-- C10 amended.  When the main write of `Put` fails: (1) if no cross-segment
pre-delete fires (key absent or already in the active segment), `Put`
returns the error and leaves the index, the live counters and the segment
contents exactly as they were, while `CurOffset` is still advanced by the
encoded record length; (2) if a cross-segment pre-delete fired and its write
succeeded, `Put` returns the error, but the pre-delete's effects persist:
the key is removed from the index and the old segment's counter is
decremented, with `CurOffset` again advanced. -/
theorem C10_failed_write :
    (∀ st : PQState, ∀ k v : List Nat, k ≠ [] → crossSeg st k = false →
      (Put st k (some v) false false).err = some PErr.writeFail ∧
      (Put st k (some v) false false).st.index = st.index ∧
      (Put st k (some v) false false).st.countF = st.countF ∧
      (Put st k (some v) false false).st.segs = st.segs ∧
      (Put st k (some v) false false).st.curOffset =
        st.curOffset + (encodeRec k v).length) ∧
    (∀ st : PQState, ∀ k v : List Nat, ∀ f0 o0 : Nat, k ≠ [] →
      ilookup st.index k = some (f0, o0) → f0 ≠ st.file →
      (Put st k (some v) true false).err = some PErr.writeFail ∧
      (Put st k (some v) true false).st.index = idel st.index k ∧
      (Put st k (some v) true false).st.countF = cbump st.countF f0 (-1) ∧
      (Put st k (some v) true false).st.curOffset =
        st.curOffset + (encodeRec k v).length) := by
  constructor
  · intro st k v hk hc
    rw [Put_nocross st k (some v) false false hk (by rw [hc]; simp)]
    rw [putBody_fail_some]
    exact ⟨rfl, rfl, rfl, rfl, rfl⟩
  · intro st k v f0 o0 hk hl hf
    rw [Put_cross st k v true false hk (crossSeg_true st k f0 o0 hl hf),
      putBody_del st k f0 o0 hl]
    dsimp only
    rw [if_neg hf, putBody_fail_some]
    exact ⟨rfl, rfl, rfl, rfl⟩

/-- Witness for C10's amended statement. -/
theorem C10_failed_write_witness :
    (([97] : List Nat) ≠ [] ∧ crossSeg (freshPQ (fun _ => [])) [97] = false ∧
      (Put (freshPQ (fun _ => [])) [97] (some [118]) false false).err =
        some PErr.writeFail) ∧
    (ilookup stCross.index [97] = some (1, 0) ∧ (1 : Nat) ≠ stCross.file ∧
      (Put stCross [97] (some [118]) true false).st.index = idel stCross.index [97]) :=
  ⟨⟨by decide, by decide,
    (C10_failed_write.1 (freshPQ (fun _ => [])) [97] [118] (by decide) (by decide)).1⟩,
   ⟨by decide, by decide,
    (C10_failed_write.2 stCross [97] [118] 1 0 (by decide) (by decide) (by decide)).2.1⟩⟩

/-! ### Claim C9: ListKeys versus CountKeys -/

theorem filter_length_lt {α : Type} (l : List α) (p q : α → Bool)
    (hpq : ∀ a : α, q a = true → p a = true) (a : α) (ha : a ∈ l)
    (hap : p a = true) (haq : q a = false) :
    (l.filter q).length < (l.filter p).length := by
  induction l with
  | nil => cases ha
  | cons x t ih =>
    rw [List.filter_cons, List.filter_cons]
    rcases List.mem_cons.mp ha with hx | hx
    · subst hx
      rw [if_pos hap, if_neg (by rw [haq]; exact Bool.false_ne_true)]
      have hst : (t.filter q).length ≤ (t.filter p).length :=
        (List.monotone_filter_right t (fun b hb => hpq b hb)).length_le
      rw [List.length_cons]
      omega
    · have hlt := ih hx
      by_cases hqx : q x = true
      · rw [if_pos (hpq x hqx), if_pos hqx, List.length_cons, List.length_cons]
        omega
      · rw [if_neg hqx]
        by_cases hpx : p x = true
        · rw [if_pos hpx, List.length_cons]
          omega
        · rw [if_neg hpx]
          exact hlt

/-- C9.  `ListKeys p` returns exactly the index keys of length at least
`|p|` whose first `|p|` bytes equal `p` — in particular `p` itself when it
is a key — while `CountKeys p` only counts keys of length strictly greater
than `|p|`; hence for every non-empty `p` that is itself an index key,
`CountKeys p` is strictly smaller than the number of keys `ListKeys p`
returns. -/
theorem C9_list_vs_count (st : PQState) (p : List Nat) :
    (∀ k : List Nat, k ∈ ListKeys st p ↔
      k ∈ ListAllKeys st ∧ (0 < p.length → p.length ≤ k.length ∧ k.take p.length = p)) ∧
    (p ≠ [] → p ∈ ListAllKeys st → p ∈ ListKeys st p) ∧
    (p ≠ [] → p ∈ ListAllKeys st → CountKeys st p < (ListKeys st p).length) := by
  have h1 : ∀ k : List Nat, k ∈ ListKeys st p ↔
      k ∈ ListAllKeys st ∧ (0 < p.length → p.length ≤ k.length ∧ k.take p.length = p) := by
    intro k
    unfold ListKeys
    rw [List.mem_filter]
    constructor
    · rintro ⟨hmem, hpred⟩
      refine ⟨hmem, fun hp => ?_⟩
      rw [if_pos hp] at hpred
      by_cases hlen : p.length ≤ k.length
      · rw [if_pos hlen] at hpred
        exact ⟨hlen, by simpa using hpred⟩
      · rw [if_neg hlen] at hpred
        cases hpred
    · rintro ⟨hmem, hcond⟩
      refine ⟨hmem, ?_⟩
      by_cases hp : 0 < p.length
      · obtain ⟨hlen, htake⟩ := hcond hp
        rw [if_pos hp, if_pos hlen]
        simpa using htake
      · rw [if_neg hp]
  refine ⟨h1, ?_, ?_⟩
  · intro hp hin
    refine (h1 p).mpr ⟨hin, fun _ => ⟨le_rfl, List.take_length p⟩⟩
  · intro hp hin
    have hp' : 0 < p.length := List.length_pos.mpr hp
    unfold CountKeys ListKeys
    apply filter_length_lt (ListAllKeys st) _ _ ?_ p hin ?_ ?_
    · intro a ha
      by_cases hpl : 0 < p.length
      · rw [if_pos hpl] at ha ⊢
        by_cases hal : p.length < a.length
        · rw [if_pos hal] at ha
          rw [if_pos (Nat.le_of_lt hal)]
          exact ha
        · rw [if_neg hal] at ha
          cases ha
      · rw [if_neg hpl]
    · rw [if_pos hp', if_pos le_rfl]
      simp [List.take_length]
    · rw [if_pos hp', if_neg (lt_irrefl p.length)]

/-- The index of the C9 witness holds the keys "a" and "ab". -/
def stC9 : PQState :=
  { file := 1, segs := fun _ => [], index := [([97], (1, 0)), ([97, 98], (1, 22))],
    countF := [(1, 2)], curOffset := 0, msize := 100000000, keysReallocate := none,
    lastOldKey := [] }

/-- Witness for C9 at `p = "a"`. -/
theorem C9_list_vs_count_witness :
    (([97] : List Nat) ≠ [] ∧ [97] ∈ ListAllKeys stC9) ∧
    CountKeys stC9 [97] < (ListKeys stC9 [97]).length :=
  ⟨⟨by decide, by decide⟩,
   (C9_list_vs_count stC9 [97]).2.2 (by decide) (by decide)⟩

/-! ### Claim C6: scan truncation at the first decode failure -/

theorem GetOff_eof (c : List Nat) (off : Nat) (h : c.length ≤ off) :
    GetOff c off = none := by
  unfold GetOff
  rw [fread_none_of_le c off 15 (by norm_num) h]

/-- A successful decode starts before end of file and advances the offset by
at least two bytes. -/
theorem GetOff_some_bounds (c : List Nat) (off : Nat) (k v : List Nat) (off' : Nat)
    (h : GetOff c off = some (k, v, off')) : off < c.length ∧ off + 2 ≤ off' := by
  by_cases hoff : c.length ≤ off
  · rw [GetOff_eof c off hoff] at h
    cases h
  · push_neg at hoff
    refine ⟨hoff, ?_⟩
    unfold GetOff at h
    split at h
    · cases h
    · rename_i hdr szH heq1
      have hszH : 1 ≤ szH := by
        rw [fread, if_neg (by norm_num), if_neg (by omega)] at heq1
        have h2 : 15 ⊓ (c.length - off) = szH := by
          have h1 := Option.some_inj.mp heq1
          simpa using congrArg Prod.snd h1
        omega
      dsimp only at h
      split at h
      · cases h
      · rename_i dlen szL heq2
        split at h
        · cases h
        · rename_i db szD heq3
          split at h
          · have := Option.some_inj.mp h
            have h3 : off + szH + szL + szD + 1 = off' := by
              have := congrArg (fun t => t.2.2) this
              simpa using this
            omega
          · cases h

/-- With enough fuel the scan loop stops at an offset where decoding fails:
all bytes at and beyond the final offset are treated as absent. -/
theorem scanLoop_stops (c : List Nat) (f : Nat) (fuel : Nat) :
    ∀ a : ScanAcc, c.length < a.curOffset + fuel →
      GetOff c (scanLoop c f fuel a).curOffset = none := by
  induction fuel with
  | zero =>
    intro a h
    rw [scanLoop]
    exact GetOff_eof c _ (by omega)
  | succ n ih =>
    intro a h
    rw [scanLoop]
    cases hg : GetOff c a.curOffset with
    | none => exact hg
    | some kvo =>
      obtain ⟨key, data, off⟩ := kvo
      have hb := GetOff_some_bounds c a.curOffset key data off hg
      dsimp only
      by_cases hd : 0 < data.length
      · rw [if_pos hd]
        exact ih _ (by dsimp only; omega)
      · rw [if_neg hd]
        cases hl : ilookup a.index key with
        | some fo =>
          obtain ⟨f0, o0⟩ := fo
          dsimp only
          exact ih _ (by dsimp only; omega)
        | none => exact ih _ (by dsimp only; omega)

/-- Every index entry of segment `f` in the accumulator points below the
current offset at a successfully decoding, non-delete record. -/
def EntriesOK (c : List Nat) (f : Nat) (a : ScanAcc) : Prop :=
  ∀ e ∈ a.index, e.2.1 = f →
    e.2.2 < a.curOffset ∧ ∃ d o, GetOff c e.2.2 = some (e.1, d, o) ∧ d ≠ []

theorem scanLoop_entries (c : List Nat) (f : Nat) (fuel : Nat) :
    ∀ a : ScanAcc, EntriesOK c f a → EntriesOK c f (scanLoop c f fuel a) := by
  induction fuel with
  | zero => exact fun a h => h
  | succ n ih =>
    intro a ha
    rw [scanLoop]
    cases hg : GetOff c a.curOffset with
    | none => exact ha
    | some kvo =>
      obtain ⟨key, data, off⟩ := kvo
      have hb := GetOff_some_bounds c a.curOffset key data off hg
      dsimp only
      by_cases hd : 0 < data.length
      · rw [if_pos hd]
        apply ih
        intro e he hef
        dsimp only at he ⊢
        rcases mem_iset _ _ _ _ he with rfl | hmem
        · exact ⟨by dsimp only; omega,
            data, off, by dsimp only; exact hg, List.length_pos.mp hd⟩
        · obtain ⟨hlt, d, o, hdec, hne⟩ := ha e hmem hef
          exact ⟨by omega, d, o, hdec, hne⟩
      · rw [if_neg hd]
        cases hl : ilookup a.index key with
        | some fo =>
          obtain ⟨f0, o0⟩ := fo
          dsimp only
          apply ih
          intro e he hef
          dsimp only at he ⊢
          obtain ⟨hlt, d, o, hdec, hne⟩ := ha e (mem_idel _ _ _ he) hef
          exact ⟨by omega, d, o, hdec, hne⟩
        | none =>
          apply ih
          intro e he hef
          dsimp only at he ⊢
          obtain ⟨hlt, d, o, hdec, hne⟩ := ha e he hef
          exact ⟨by omega, d, o, hdec, hne⟩

/-- The single-record segment of the C6 scenario with byte 5 (inside the
checksum field, bytes 3..12) corrupted. -/
def segsCorrupt : Nat → List Nat :=
  fun f => if f = 1 then (encodeRec [49] [120]).set 5 55 else []

/-- C6.  The startup scan of a segment stops at the first record that fails
to decode: the final offset (the segment's logical length) fails to decode —
bytes at and beyond it are treated as absent — and every entry the scan
placed in the index for this segment lies below that offset and decodes
successfully to a non-delete record for its key.  In particular, scanning a
single-record segment whose checksum field is corrupted at byte 5 yields an
empty index with logical length 0. -/
theorem C6_truncation_recovery :
    (∀ st : PQState, ∀ f : Nat, (∀ e ∈ st.index, e.2.1 ≠ f) →
      GetOff (st.segs f) (Start st f).curOffset = none ∧
      (∀ e ∈ (Start st f).index, e.2.1 = f →
        e.2.2 < (Start st f).curOffset ∧
        ∃ d o, GetOff (st.segs f) e.2.2 = some (e.1, d, o) ∧ d ≠ [])) ∧
    ((encodeRec [49] [120]).set 5 55 ≠ encodeRec [49] [120] ∧
     GetOff (encodeRec [49] [120]) 0 = some ([49], [120], 22) ∧
     (Start (freshPQ segsCorrupt) 1).index = [] ∧
     (Start (freshPQ segsCorrupt) 1).curOffset = 0 ∧
     GetOff (segsCorrupt 1) 0 = none) := by
  constructor
  · intro st f hf
    constructor
    · exact scanLoop_stops (st.segs f) f ((st.segs f).length + 1) _ (by dsimp only; omega)
    · intro e he hef
      have hinit : EntriesOK (st.segs f) f
          { index := st.index, countF := st.countF, curOffset := 0,
            lastOldKey := st.lastOldKey, blockKeys := [], totalKeys := 0 } := by
        intro e' he' hef'
        exact absurd hef' (hf e' he')
      exact scanLoop_entries (st.segs f) f ((st.segs f).length + 1) _ hinit e he hef
  · exact ⟨by decide, by decide, by decide, by decide, by decide⟩

/-- Witness for C6 on the corrupted single-record segment. -/
theorem C6_truncation_recovery_witness :
    (∀ e ∈ (freshPQ segsCorrupt).index, e.2.1 ≠ 1) ∧
    GetOff ((freshPQ segsCorrupt).segs 1) (Start (freshPQ segsCorrupt) 1).curOffset =
      none :=
  ⟨fun e he => absurd he (List.not_mem_nil e),
   (C6_truncation_recovery.1 (freshPQ segsCorrupt) 1
     (fun e he => absurd he (List.not_mem_nil e))).1⟩

/-! ### Claim C7: reallocation threshold and re-puts -/

/-- The exact value of Go's float comparison: for natural counts,
`float64(a)/float64(t) < 0.1` (NaN for `t = 0`, comparing false) holds iff
`t` is positive and the exact ratio is below 1/10. -/
theorem ratio_lt_iff (a t : Nat) :
    (10 * a < t) ↔ (0 < t ∧ (a : ℚ) / (t : ℚ) < 1 / 10) := by
  constructor
  · intro h
    have ht : 0 < t := by omega
    refine ⟨ht, ?_⟩
    rw [div_lt_div_iff (by exact_mod_cast ht) (by norm_num)]
    have hc : ((10 * a : Nat) : ℚ) < (t : ℚ) := by exact_mod_cast h
    push_cast at hc
    linarith
  · rintro ⟨ht, h⟩
    rw [div_lt_div_iff (by exact_mod_cast ht) (by norm_num)] at h
    have hc : ((10 * a : Nat) : ℚ) < (t : ℚ) := by push_cast; linarith
    exact_mod_cast hc

theorem checkNewBlock_eq (st : PQState) (h : ¬ st.msize < st.curOffset) :
    checkNewBlock st = st := by
  unfold checkNewBlock
  rw [if_neg h]

/-- The success conditions along `Reallocate`'s loop: every enqueued key
still indexed outside the active segment is readable (`Get` succeeds), its
re-`Put` returns no error, and no rotation triggers afterwards. -/
def reallocOk : List (List Nat) → PQState → Bool
  | [] => fun _ => true
  | k :: ks => fun st =>
    match ilookup st.index k with
    | some (f0, _) =>
      if f0 ≠ st.file then
        match Get st k with
        | some r =>
          let pr := Put st k (some r) true true
          match pr.err with
          | some _ => false
          | none => decide (pr.st.curOffset ≤ pr.st.msize) && reallocOk ks pr.st
        | none => false
      else reallocOk ks st
    | none => reallocOk ks st

theorem reallocLoop_spec (ks : List (List Nat)) :
    ∀ st : PQState, reallocOk ks st = true →
      (reallocLoop ks st).2 = none ∧
      (reallocLoop ks st).1.file = st.file ∧
      (∀ k : List Nat, ∀ f0 o0 : Nat, ilookup st.index k = some (f0, o0) →
        f0 = st.file → ilookup (reallocLoop ks st).1.index k = some (f0, o0)) ∧
      (∀ k : List Nat, k ∈ ks → ∀ f0 o0 : Nat, ilookup st.index k = some (f0, o0) →
        f0 ≠ st.file → ∃ o : Nat, ilookup (reallocLoop ks st).1.index k =
          some (st.file, o)) := by
  induction ks with
  | nil =>
    intro st _
    exact ⟨rfl, rfl, fun k f0 o0 hl _ => hl,
      fun k hk => absurd hk (List.not_mem_nil k)⟩
  | cons k0 t ih =>
    intro st hok
    rw [reallocLoop]
    rw [reallocOk] at hok
    dsimp only at hok ⊢
    cases hl0 : ilookup st.index k0 with
    | none =>
      rw [hl0] at hok
      obtain ⟨h1, h2, h3, h4⟩ := ih st hok
      refine ⟨h1, h2, h3, ?_⟩
      intro k hk f0 o0 hl hf
      rcases List.mem_cons.mp hk with rfl | hk'
      · rw [hl0] at hl
        cases hl
      · exact h4 k hk' f0 o0 hl hf
    | some fo =>
      obtain ⟨f0', o0'⟩ := fo
      rw [hl0] at hok
      dsimp only at hok ⊢
      by_cases hf' : f0' ≠ st.file
      · rw [if_pos hf'] at hok ⊢
        cases hG : Get st k0 with
        | none =>
          rw [hG] at hok
          cases hok
        | some r =>
          rw [hG] at hok
          dsimp only at hok ⊢
          by_cases hk0 : k0 = []
          · subst hk0
            rw [Put_empty st (some r) true true] at hok
            cases hok
          · obtain ⟨he, hfile, hmsz, hcur, hself, hother, _⟩ :=
              put_cross_fields st k0 r f0' o0' hk0 hl0 hf'
            rw [he] at hok ⊢
            dsimp only at hok ⊢
            rw [Bool.and_eq_true] at hok
            obtain ⟨hrot, hrest⟩ := hok
            rw [decide_eq_true_eq] at hrot
            have hcnb : checkNewBlock (Put st k0 (some r) true true).st =
                (Put st k0 (some r) true true).st :=
              checkNewBlock_eq _ (by omega)
            rw [hcnb]
            obtain ⟨h1, h2, h3, h4⟩ := ih _ hrest
            refine ⟨h1, by rw [h2, hfile], ?_, ?_⟩
            · intro k f0 o0 hl hf
              have hkk0 : k ≠ k0 := by
                rintro rfl
                rw [hl0] at hl
                injection hl with hl'
                have h5 : f0' = f0 := congrArg Prod.fst hl'
                exact hf' (by rw [h5, hf])
              apply h3 k f0 o0
              · rw [hother k hkk0]
                exact hl
              · rw [hfile]
                exact hf
            · intro k hk f0 o0 hl hf
              by_cases hkk0 : k = k0
              · subst hkk0
                exact ⟨st.curOffset, h3 k st.file st.curOffset hself hfile.symm⟩
              · rcases List.mem_cons.mp hk with rfl | hk'
                · exact absurd rfl hkk0
                · have h4' := h4 k hk' f0 o0 (by rw [hother k hkk0]; exact hl)
                    (by rw [hfile]; exact hf)
                  obtain ⟨o, ho⟩ := h4'
                  exact ⟨o, by rw [← hfile]; exact ho⟩
      · rw [if_neg hf'] at hok ⊢
        push_neg at hf'
        obtain ⟨h1, h2, h3, h4⟩ := ih st hok
        refine ⟨h1, h2, h3, ?_⟩
        intro k hk f0 o0 hl hf
        rcases List.mem_cons.mp hk with rfl | hk'
        · rw [hl0] at hl
          injection hl with hl'
          have h5 : f0' = f0 := congrArg Prod.fst hl'
          exact absurd (by rw [← h5]; exact hf') hf
        · exact h4 k hk' f0 o0 hl hf

/-- C7.  (1) `Start f` enqueues a key for reallocation exactly when it is
already enqueued or the scanned segment has a positive record count whose
exact live-share is below 1/10 and the key is one of the segment's
still-live keys (the Go float test `count_active/total < 0.1` — false on
the NaN of `0/0` — has exactly this value).  (2) On the success path
described by `reallocOk`, `Reallocate` returns no error, leaves every key
indexed in the active segment untouched, and re-`Put`s every enqueued key
indexed outside the active segment, which afterwards is indexed in the
active segment. -/
theorem C7_reallocation :
    (∀ st : PQState, ∀ f : Nat, ∀ k : List Nat,
      k ∈ (Start st f).keysReallocate.getD [] ↔
        k ∈ st.keysReallocate.getD [] ∨
          (0 < (scanOf st f).totalKeys ∧
           ((((scanOf st f).blockKeys.filter (fun e => e.2)).length : ℚ) /
              ((scanOf st f).totalKeys : ℚ) < 1 / 10) ∧
           k ∈ liveKeys st f)) ∧
    (∀ st : PQState, reallocOk (st.keysReallocate.getD []) st = true →
      (Reallocate st).2 = none ∧
      (∀ k : List Nat, ∀ f0 o0 : Nat, ilookup st.index k = some (f0, o0) →
        f0 = st.file → ilookup (Reallocate st).1.index k = some (f0, o0)) ∧
      (∀ k : List Nat, k ∈ st.keysReallocate.getD [] →
        ∀ f0 o0 : Nat, ilookup st.index k = some (f0, o0) → f0 ≠ st.file →
        ∃ o : Nat, ilookup (Reallocate st).1.index k = some (st.file, o))) := by
  constructor
  · intro st f k
    unfold Start
    dsimp only
    by_cases hcond : 10 * ((scanOf st f).blockKeys.filter (fun e => e.2)).length <
        (scanOf st f).totalKeys
    · rw [if_pos hcond, Option.getD_some, List.mem_append]
      obtain ⟨ht, hq⟩ := (ratio_lt_iff _ _).mp hcond
      constructor
      · rintro (h | h)
        · exact Or.inl h
        · exact Or.inr ⟨ht, hq, h⟩
      · rintro (h | ⟨_, _, h⟩)
        · exact Or.inl h
        · exact Or.inr h
    · rw [if_neg hcond]
      constructor
      · intro h
        exact Or.inl h
      · rintro (h | ⟨ht, hq, _⟩)
        · exact h
        · exact absurd ((ratio_lt_iff _ _).mpr ⟨ht, hq⟩) hcond
  · intro st hok
    unfold Reallocate
    cases hks : st.keysReallocate with
    | none =>
      dsimp only
      refine ⟨rfl, fun k f0 o0 hl _ => hl, ?_⟩
      intro k hk
      exact absurd (by simpa using hk) (List.not_mem_nil k)
    | some ks =>
      dsimp only
      rw [hks] at hok
      rw [Option.getD_some] at hok
      by_cases hne : ks ≠ []
      · rw [if_pos hne]
        obtain ⟨h1, h2, h3, h4⟩ := reallocLoop_spec ks st hok
        cases hr : reallocLoop ks st with
        | mk st' e =>
          rw [hr] at h1 h2 h3 h4
          dsimp only at h1
          subst h1
          dsimp only
          refine ⟨rfl, ?_, ?_⟩
          · intro k f0 o0 hl hf
            exact h3 k f0 o0 hl hf
          · intro k hk f0 o0 hl hf
            exact h4 k (by simpa using hk) f0 o0 hl hf
      · rw [if_neg hne]
        push_neg at hne
        subst hne
        dsimp only
        refine ⟨rfl, fun k f0 o0 hl _ => hl, ?_⟩
        intro k hk
        exact absurd (by simpa using hk) (List.not_mem_nil k)

/-- The witness state for C7: key "a" lives in segment 1 with its record on
disk, segment 2 is active, and "a" is enqueued for reallocation. -/
def stC7 : PQState :=
  { file := 2, segs := fun f => if f = 1 then encodeRec [97] [118] else [],
    index := [([97], (1, 0))], countF := [(1, 1)], curOffset := 0,
    msize := 100000000, keysReallocate := some [[97]], lastOldKey := [97] }

/-- Witness for C7. -/
theorem C7_reallocation_witness :
    reallocOk (stC7.keysReallocate.getD []) stC7 = true ∧
    (Reallocate stC7).2 = none ∧
    ilookup stC7.index [97] = some (1, 0) ∧ (1 : Nat) ≠ stC7.file ∧
    (∃ o : Nat, ilookup (Reallocate stC7).1.index [97] = some (stC7.file, o)) :=
  ⟨by decide, (C7_reallocation.2 stC7 (by decide)).1, by decide, by decide,
   (C7_reallocation.2 stC7 (by decide)).2.2 [97] (by decide) 1 0 (by decide) (by decide)⟩

/-! ### Claim C1: the queue reopen scenario and the empty flag -/

/-- C1 counterexample.  On the queue reopened over the two pushed records,
the first `Pop` returns value "x" and key "1" as claimed, but its `empty`
flag is `true`, not `false`: during replay `current = max` already holds
(both were set to the last replayed key "2"), and `empty` is computed as
`max == current`. -/
theorem C1_counterexample :
    (Pop qScenario).val = some [120] ∧ (Pop qScenario).key = [49] ∧
    (Pop qScenario).empty = true ∧ (Pop qScenario).empty ≠ false := by decide

/-- C1 amended.  Reopening the directory produced by `Push "x"; Push "y"`,
the first `Pop` returns ("x", "1", empty = true) — not `false` — and the
second ("y", "2", empty = true); in general every error-free `Pop` returns
`empty = (max == current)` read from the queue state at return time (on a
retrieve error during replay the flag is Go's zero value `false` instead). -/
theorem C1_queue_scenario :
    ((InitSQ segsScenario [1]).isSome ∧
     ((Push ((Push ((InitSQ (fun _ => []) []).getD default) [120]).2) [121]).2).pq.segs 1 =
       segsScenario 1 ∧
     (Pop qScenario).val = some [120] ∧ (Pop qScenario).key = [49] ∧
     (Pop qScenario).empty = true ∧ (Pop qScenario).err = none ∧
     (Pop (Pop qScenario).q).val = some [121] ∧ (Pop (Pop qScenario).q).key = [50] ∧
     (Pop (Pop qScenario).q).empty = true ∧ (Pop (Pop qScenario).q).err = none) ∧
    (∀ q : SQ, (Pop q).err = none →
      (Pop q).empty = decide ((Pop q).q.max = (Pop q).q.current)) := by
  constructor
  · exact ⟨by decide, by decide, by decide, by decide, by decide, by decide, by decide,
      by decide, by decide, by decide⟩
  · intro q herr
    unfold Pop at herr ⊢
    by_cases hll : q.useLinkedList = true
    · rw [if_pos hll] at herr ⊢
      cases hg : Get q.pq (q.oldRecs.headD []) with
      | none =>
        rw [hg] at herr
        simp at herr
      | some r => rfl
    · rw [if_neg hll] at herr ⊢
      by_cases hc : q.current < q.max
      · rw [if_pos hc] at herr ⊢
        cases hg : Get q.pq (formatHex (q.current + 1)) with
        | none => rw [hg] at herr
        | some r => rfl
      · rw [if_neg hc] at herr
        simp at herr

/-- Witness for C1's amended statement at the scenario queue. -/
theorem C1_queue_scenario_witness :
    (Pop qScenario).err = none ∧
    (Pop qScenario).empty = decide ((Pop qScenario).q.max = (Pop qScenario).q.current) :=
  ⟨by decide, C1_queue_scenario.2 qScenario (by decide)⟩

end CaskDB
